import Mathlib

/-!
Verification of the knowledge-base topic core.

A shallow embedding of the topic entity store, hierarchy walks, tree
traversals, path finder, relationship classifier and relevance search of
the knowledge-base-api repository, together with proofs and refutations of
the specified properties.

Conventions of the embedding:
* JavaScript objects live on an explicit heap (a list of records addressed
  by position); object references are heap addresses, so the aliasing and
  in-place mutation of the source are modelled faithfully.
* JavaScript Map insertion-order semantics are modelled by association
  lists whose set-operation updates in place and appends fresh keys.
* Unbounded recursion in the source (the child walks recurse with no
  visited set) is modelled with an explicit fuel parameter; running out of
  fuel yields the distinguished error fuelErr, which is distinct from
  every error message the source can throw, so an ok result always
  corresponds to a real terminating run of the source.
* Timestamps are modelled by a logical clock in the repository state; the
  wall-clock values never influence control flow.
* File persistence (save and load), event publishing and the per-user
  permission checks are out of scope per the specification; the embedded
  operations correspond to calls with no userId.
-/

namespace KB

/-- ASCII lower-casing, modelling the JavaScript toLowerCase on the
identifier and text data used by the repository. -/
def jsToLower (s : String) : String :=
  String.mk (s.toList.map Char.toLower)

/-- Contiguous-substring scan over character lists. -/
def subScan (hay needle : List Char) : Bool :=
  if needle.isPrefixOf hay then true
  else
    match hay with
    | [] => false
    | _ :: rest => subScan rest needle

/-- Substring containment check, modelling the JavaScript
String.prototype.includes. -/
def jsIncludes (hay needle : String) : Bool :=
  subScan hay.toList needle.toList

/-- Lookup in an insertion-ordered association list, modelling
JavaScript Map.get. -/
def mapGet {κ α : Type} [DecidableEq κ] (m : List (κ × α)) (k : κ) : Option α :=
  match m with
  | [] => none
  | (k', v) :: rest => if k' = k then some v else mapGet rest k

/-- Update in an insertion-ordered association list, modelling JavaScript
Map.set: an existing key keeps its position, a fresh key is appended. -/
def mapSet {κ α : Type} [DecidableEq κ] (m : List (κ × α)) (k : κ) (v : α) :
    List (κ × α) :=
  match m with
  | [] => [(k, v)]
  | (k', v') :: rest =>
      if k' = k then (k', v) :: rest else (k', v') :: mapSet rest k v

/-- Key removal from an insertion-ordered association list, modelling
JavaScript Map.delete (the removed flag is whether the key was present). -/
def mapDel {κ α : Type} [DecidableEq κ] (m : List (κ × α)) (k : κ) :
    List (κ × α) :=
  match m with
  | [] => []
  | (k', v') :: rest =>
      if k' = k then rest else (k', v') :: mapDel rest k

/-- Key membership in an association list, modelling JavaScript Map.has. -/
def mapHas {κ α : Type} [DecidableEq κ] (m : List (κ × α)) (k : κ) : Bool :=
  (mapGet m k).isSome

/-- The Topic entity (src/models/Topic.ts).  The childTopics map stores
object references, embedded as heap addresses. -/
structure TopicObj where
  id : String
  name : String
  content : String
  version : Nat
  parentId : Option String
  children : List String
  childTopics : List (String × Nat)
  createdAt : Nat
  updatedAt : Nat
deriving Repr, DecidableEq

/-- The object heap: JavaScript objects addressed by allocation index. -/
abbrev Heap := List TopicObj

def Heap.read (h : Heap) (a : Nat) : Option TopicObj := h.get? a

def Heap.write (h : Heap) (a : Nat) (o : TopicObj) : Heap := h.set a o

def Heap.alloc (h : Heap) (o : TopicObj) : Heap × Nat := (h ++ [o], h.length)

/-- JavaScript whitespace test for the characters relevant to trim. -/
def isJsSpace (c : Char) : Bool :=
  c = ' ' ∨ c = '\t' ∨ c = '\n' ∨ c = '\r'

/-- String.prototype.trim. -/
def jsTrim (s : String) : String :=
  String.mk (((s.toList.dropWhile isJsSpace).reverse.dropWhile isJsSpace).reverse)

/-- Topic.validate (src/models/Topic.ts): the list of violated rules, in
source order.  The topic is valid when the list is empty. -/
def TopicObj.validate (t : TopicObj) : List String :=
  (if t.name = "" ∨ jsTrim t.name = "" then ["Topic name is required"] else []) ++
  (if t.name ≠ "" ∧ t.name.length > 200 then
    ["Topic name must be less than 200 characters"] else []) ++
  (if t.content = "" ∨ jsTrim t.content = "" then ["Topic content is required"] else []) ++
  (if t.version < 1 then ["Version must be a positive number"] else []) ++
  (if t.parentId = some t.id then ["Topic cannot be its own parent"] else [])

/-- JavaScript truthy-or fallback on an optional string argument:
the empty string is falsy, so it also falls back to the default. -/
def jsOrStr (x : Option String) (dflt : String) : String :=
  match x with
  | some s => if s = "" then dflt else s
  | none => dflt

/-- Topic.createNewVersion (src/models/Topic.ts): a fresh object with the
version bumped by one, the same id and parentId, and the children
bookkeeping copied.  The clock argument stands for the Date calls of the
constructor. -/
def TopicObj.createNewVersionObj (t : TopicObj) (newContent newName : Option String)
    (clock : Nat) : TopicObj :=
  { id := t.id
    name := jsOrStr newName t.name
    content := jsOrStr newContent t.content
    version := t.version + 1
    parentId := t.parentId
    children := t.children
    childTopics := t.childTopics
    createdAt := clock
    updatedAt := clock }

/-- The in-memory state of the topic repository (TopicRepository plus its
BaseRepository data map): the heap, the live map from topic id to object
address, the per-id version map from version number to object address, and
the logical clock backing Date. -/
structure RepoState where
  heap : Heap
  data : List (String × Nat)
  versionData : List (String × List (Nat × Nat))
  clock : Nat
deriving Repr, DecidableEq

/-- BaseRepository.findById, returning the object reference together with
its current value. -/
def findByIdA (st : RepoState) (id : String) : Option (Nat × TopicObj) :=
  match mapGet st.data id with
  | none => none
  | some a =>
    match st.heap.read a with
    | none => none
    | some t => some (a, t)

/-- The current value of the live record of an id, when it exists. -/
def findByIdObj (st : RepoState) (id : String) : Option TopicObj :=
  (findByIdA st id).map Prod.snd

/-- BaseRepository.exists. -/
def existsId (st : RepoState) (id : String) : Bool :=
  mapHas st.data id

/-- The single-criterion matcher applied by BaseRepository.findBy to the
criteria object with the one key parentId: a string criterion matches a
string field by case-insensitive substring containment, and a missing
field matches only a null criterion. -/
def matchesParent (t : TopicObj) (p : String) : Bool :=
  match t.parentId with
  | some s => jsIncludes (jsToLower s) (jsToLower p)
  | none => false

/-- TopicRepository.findByParentId = BaseRepository.findBy with the
criteria object containing the single key parentId, keeping the data-map
insertion order and returning object references with their values. -/
def findByParentIdA (st : RepoState) (p : String) : List (Nat × TopicObj) :=
  st.data.filterMap (fun kv =>
    match st.heap.read kv.2 with
    | none => none
    | some t => if matchesParent t p then some (kv.2, t) else none)

/-- The topics returned by TopicRepository.findByParentId. -/
def findByParentId (st : RepoState) (p : String) : List TopicObj :=
  (findByParentIdA st p).map Prod.snd

/-- BaseRepository.findAll: the live objects in data-map order. -/
def findAll (st : RepoState) : List TopicObj :=
  st.data.filterMap (fun kv => st.heap.read kv.2)

/-- Error text distinct from every message the source throws, reported
when the modelled call would not terminate within the given fuel (the
source recursion has no visited set, so it can genuinely diverge). -/
def fuelErr : String := "__fuel__"

/-- errors.join with the comma separator used by the thrown messages. -/
def joinErrs (es : List String) : String :=
  String.intercalate ", " es

/-- Advance the logical clock after a Date observation. -/
def tick (st : RepoState) : RepoState :=
  { st with clock := st.clock + 1 }

/-- Topic.addChild (src/models/Topic.ts), on object references: when the
child id is not yet in the children array, push it, record the child
reference in childTopics, rewrite the child object's parentId to the
parent id, and touch the parent.  All writes go through the heap in source
order, so the parent-equals-child aliasing case behaves as in JavaScript. -/
def addChild (st : RepoState) (parentAddr childAddr : Nat) : RepoState :=
  match st.heap.read parentAddr, st.heap.read childAddr with
  | some parent, some child =>
    if child.id ∈ parent.children then st
    else
      let h1 := st.heap.write parentAddr
        { parent with children := parent.children ++ [child.id]
                      childTopics := mapSet parent.childTopics child.id childAddr }
      let h2 :=
        match h1.read childAddr with
        | some c1 => h1.write childAddr { c1 with parentId := some parent.id }
        | none => h1
      let h3 :=
        match h2.read parentAddr with
        | some p1 => h2.write parentAddr { p1 with updatedAt := st.clock }
        | none => h2
      tick { st with heap := h3 }
  | _, _ => st

/-- TopicRepository.loadChildrenRecursively: compute the children of the
topic at the given address by findByParentId once, then for each one in
order attach it with addChild and recurse into it.  The source recursion
carries no visited set, so it diverges on cyclic child graphs; fuel, which
bounds the recursion depth, exhausting returns none, and the loop is a
fold threading the evolving state. -/
def loadChildrenRec : Nat → RepoState → Nat → Option RepoState
  | 0, _, _ => none
  | Nat.succ f, st, addr =>
    match st.heap.read addr with
    | none => none
    | some topic =>
      ((findByParentIdA st topic.id).map Prod.fst).foldl
        (fun acc childAddr =>
          match acc with
          | none => none
          | some s => loadChildrenRec f (addChild s addr childAddr) childAddr)
        (some st)

/-- The object references held by a topic's childTopics map, dereferenced
in insertion order (Topic.getChildren). -/
def childObjs (h : Heap) (t : TopicObj) : List TopicObj :=
  t.childTopics.filterMap (fun kv => h.read kv.2)

/-- Topic.getAllDescendants: each child followed by its own recursive
descendants, read through the childTopics references; the loop is a fold
accumulating the pushes in order. -/
def getDescObjs : Nat → Heap → TopicObj → Option (List TopicObj)
  | 0, _, _ => none
  | Nat.succ f, h, t =>
    (childObjs h t).foldl
      (fun acc c =>
        match acc with
        | none => none
        | some ds =>
          match getDescObjs f h c with
          | none => none
          | some cs => some (ds ++ c :: cs))
      (some [])

/-- TopicRepository.getAllDescendants: build the hierarchy under the live
record of the id by the child walk, then collect the attached subtree; an
unknown id yields the empty list. -/
def repoGetAllDescendants (fuel : Nat) (st : RepoState) (id : String) :
    Except String (List TopicObj) × RepoState :=
  match findByIdA st id with
  | none => (Except.ok [], st)
  | some (a, _) =>
    match loadChildrenRec fuel st a with
    | none => (Except.error fuelErr, st)
    | some st1 =>
      match st1.heap.read a with
      | none => (Except.error fuelErr, st1)
      | some t =>
        match getDescObjs fuel st1.heap t with
        | none => (Except.error fuelErr, st1)
        | some ds => (Except.ok ds, st1)

/-- TopicRepository.canDelete: no topic is found by findByParentId. -/
def canDelete (st : RepoState) (id : String) : Bool :=
  (findByParentIdA st id).isEmpty

/-- TopicRepository.delete: refuse when findByParentId is non-empty,
otherwise drop the version chain and the live record, returning whether a
live record was removed. -/
def repoDelete (st : RepoState) (id : String) : Except String Bool × RepoState :=
  if ¬ canDelete st id then
    (Except.error "Cannot delete topic with children. Delete children first.", st)
  else
    let st1 := { st with versionData := mapDel st.versionData id }
    let deleted := mapHas st1.data id
    let st2 := { st1 with data := mapDel st1.data id }
    (Except.ok deleted, st2)

/-- BaseRepository.update restricted to the parentId patch used by
moveToParent: mutate the live object in place (assignment and timestamp
happen before validation, exactly as in the source), then validate, and
only then refresh the data map. -/
def repoUpdateParent (st : RepoState) (id : String) (p : Option String) :
    Except String (Option TopicObj) × RepoState :=
  match findByIdA st id with
  | none => (Except.ok none, st)
  | some (a, t) =>
    let t1 := { t with parentId := p, updatedAt := st.clock }
    let st1 := tick { st with heap := st.heap.write a t1 }
    if t1.validate ≠ [] then
      (Except.error ("Validation failed: " ++ joinErrs t1.validate), st1)
    else
      (Except.ok (some t1), { st1 with data := mapSet st1.data id a })

/-- JavaScript truthiness of an optional string (undefined and the empty
string are falsy). -/
def optTruthy (x : Option String) : Bool :=
  match x with
  | some s => s ≠ ""
  | none => false

/-- TopicRepository.moveToParent: resolve the topic, check the new parent
exists, refuse when the repository descendant walk finds the target below
the topic, then assign parentId on the live object and run update. -/
def repoMoveToParent (fuel : Nat) (st : RepoState) (topicId : String)
    (newParentId : Option String) : Except String (Option TopicObj) × RepoState :=
  match findByIdA st topicId with
  | none => (Except.ok none, st)
  | some (a, _) =>
    if optTruthy newParentId ∧ ¬ existsId st (newParentId.getD "") then
      (Except.error ("Parent topic with ID " ++ newParentId.getD "" ++ " not found"), st)
    else
      let circ : Except String Unit × RepoState :=
        if optTruthy newParentId then
          match repoGetAllDescendants fuel st topicId with
          | (Except.error e, st1) => (Except.error e, st1)
          | (Except.ok descs, st1) =>
            if descs.any (fun d => d.id = newParentId.getD "") then
              (Except.error "Cannot move topic to its own descendant", st1)
            else (Except.ok (), st1)
        else (Except.ok (), st)
      match circ with
      | (Except.error e, st1) => (Except.error e, st1)
      | (Except.ok _, st1) =>
        let st2 :=
          match st1.heap.read a with
          | some cur => { st1 with heap := st1.heap.write a { cur with parentId := newParentId } }
          | none => st1
        repoUpdateParent st2 topicId newParentId

/-- TopicService.wouldCreateCircularReference: whether the repository
descendant walk from the topic reaches the proposed parent. -/
def wouldCCR (fuel : Nat) (st : RepoState) (topicId newParentId : String) :
    Except String Bool × RepoState :=
  match repoGetAllDescendants fuel st topicId with
  | (Except.error e, st1) => (Except.error e, st1)
  | (Except.ok descs, st1) => (Except.ok (descs.any (fun d => d.id = newParentId)), st1)

/-- TopicService.moveToParent (the move operation of the specification,
called with no userId): the service-level cycle check followed by the
repository move. -/
def serviceMove (fuel : Nat) (st : RepoState) (topicId : String)
    (newParentId : Option String) : Except String (Option TopicObj) × RepoState :=
  let pre : Except String Unit × RepoState :=
    if optTruthy newParentId then
      match wouldCCR fuel st topicId (newParentId.getD "") with
      | (Except.error e, st1) => (Except.error e, st1)
      | (Except.ok true, st1) =>
        (Except.error "Cannot move topic to its own descendant", st1)
      | (Except.ok false, st1) => (Except.ok (), st1)
    else (Except.ok (), st)
  match pre with
  | (Except.error e, st1) => (Except.error e, st1)
  | (Except.ok _, st1) => repoMoveToParent fuel st1 topicId newParentId

/-- TopicService.delete (called with no userId): absent ids report false,
a non-empty child lookup aborts, otherwise the repository delete runs. -/
def serviceDelete (st : RepoState) (id : String) : Except String Bool × RepoState :=
  match findByIdA st id with
  | none => (Except.ok false, st)
  | some _ =>
    if ¬ canDelete st id then
      (Except.error "Cannot delete topic with children. Delete children first.", st)
    else repoDelete st id

/-- TopicRepository.createNewVersion: re-derive the new version from the
current live record (only the content and name of the passed record are
consulted), append it to the version map and make it the live record. -/
def repoCreateNewVersion (st : RepoState) (topicId : String) (updated : TopicObj) :
    Except String TopicObj × RepoState :=
  match findByIdA st topicId with
  | none => (Except.error ("Topic with ID " ++ topicId ++ " not found"), st)
  | some (_, existing) =>
    let nv := existing.createNewVersionObj (some updated.content) (some updated.name) st.clock
    let alloc := st.heap.alloc nv
    let st1 := tick { st with heap := alloc.1 }
    let vm := (mapGet st1.versionData topicId).getD []
    let st2 := { st1 with versionData := mapSet st1.versionData topicId (mapSet vm nv.version alloc.2) }
    (Except.ok nv, { st2 with data := mapSet st2.data topicId alloc.2 })

/-- The Topic constructor as invoked by TopicService.create: version 1,
no children, fresh timestamps; the uuid the constructor would draw is an
explicit argument of the model. -/
def newTopicObj (id name content : String) (parentId : Option String)
    (clock : Nat) : TopicObj :=
  { id := id, name := name, content := content, version := 1
    parentId := parentId, children := [], childTopics := []
    createdAt := clock, updatedAt := clock }

/-- TopicRepository.create on an already allocated topic object: an
existing id is routed to createNewVersion, a fresh one records version
history and, after re-validation, becomes live. -/
def repoCreate (st : RepoState) (addr : Nat) : Except String TopicObj × RepoState :=
  match st.heap.read addr with
  | none => (Except.error fuelErr, st)
  | some t =>
    if existsId st t.id then repoCreateNewVersion st t.id t
    else
      let st1 := { st with versionData := mapSet st.versionData t.id [(t.version, addr)] }
      if t.validate ≠ [] then
        (Except.error ("Validation failed: " ++ joinErrs t.validate), st1)
      else
        (Except.ok t, { st1 with data := mapSet st1.data t.id addr })

/-- TopicService.create (called with no userId): require truthy name and
content, resolve a truthy parent, construct and validate the topic, then
hand it to the repository. -/
def serviceCreate (st : RepoState) (newId : String)
    (name content parentId : Option String) : Except String TopicObj × RepoState :=
  if ¬ optTruthy name ∨ ¬ optTruthy content then
    (Except.error "Topic name and content are required", st)
  else if optTruthy parentId ∧ (findByIdA st (parentId.getD "")).isNone then
    (Except.error "Parent topic not found", st)
  else
    let t := newTopicObj newId (name.getD "") (content.getD "") parentId st.clock
    let st1 := tick st
    if t.validate ≠ [] then
      (Except.error ("Validation failed: " ++ joinErrs t.validate), st1)
    else
      let alloc := st1.heap.alloc t
      repoCreate { st1 with heap := alloc.1 } alloc.2

/-- TopicService.update (called with no userId): derive the candidate new
version from the live record, resolve and cycle-check a changed parent and
set it on the candidate, validate, then store through
TopicRepository.createNewVersion, which re-derives the record from the
live one and therefore drops the candidate's parentId.  The candidate is
modelled by value: the source temporary is referenced by nothing else. -/
def serviceUpdate (fuel : Nat) (st : RepoState) (id : String)
    (dName dContent : Option String) (dParent : Option String) :
    Except String (Option TopicObj) × RepoState :=
  match findByIdA st id with
  | none => (Except.ok none, st)
  | some (_, existing) =>
    let ut := existing.createNewVersionObj
      (some (jsOrStr dContent existing.content))
      (some (jsOrStr dName existing.name)) st.clock
    let st1 := tick st
    let parentStep : Except String TopicObj × RepoState :=
      match dParent with
      | some p =>
        if some p ≠ existing.parentId then
          if p ≠ "" then
            match findByIdA st1 p with
            | none => (Except.error "Parent topic not found", st1)
            | some _ =>
              match wouldCCR fuel st1 id p with
              | (Except.error e, st2) => (Except.error e, st2)
              | (Except.ok true, st2) =>
                (Except.error "Cannot move topic to its own descendant", st2)
              | (Except.ok false, st2) => (Except.ok { ut with parentId := some p }, st2)
          else (Except.ok { ut with parentId := some p }, st1)
        else (Except.ok ut, st1)
      | none => (Except.ok ut, st1)
    match parentStep with
    | (Except.error e, st2) => (Except.error e, st2)
    | (Except.ok ut2, st2) =>
      if ut2.validate ≠ [] then
        (Except.error ("Validation failed: " ++ joinErrs ut2.validate), st2)
      else
        match repoCreateNewVersion st2 id ut2 with
        | (Except.error e, st3) => (Except.error e, st3)
        | (Except.ok nv, st3) => (Except.ok (some nv), st3)

/-! ## Tree traversal (src/algorithms/TopicTreeTraversal.ts) -/

/-- TopicTreeTraversal.dfsRecursive: skip visited ids, mark, emit the
live record when it resolves, then recurse into the findByParentId
children in order, threading the visited set and emitted list through a
fold.  Fuel bounds the recursion depth; the visited set makes the source
recursion terminate, and dfs_adequate below shows the baked bound never
runs out. -/
def dfsRecursive : Nat → RepoState → String → List String → List TopicObj →
    Option (List String × List TopicObj)
  | 0, _, _, _, _ => none
  | Nat.succ f, st, topicId, visited, result =>
    if topicId ∈ visited then some (visited, result)
    else
      let visited1 := visited ++ [topicId]
      match findByIdObj st topicId with
      | none => some (visited1, result)
      | some t =>
        ((findByParentId st topicId).map TopicObj.id).foldl
          (fun acc cid =>
            match acc with
            | none => none
            | some (v1, r1) => dfsRecursive f st cid v1 r1)
          (some (visited1, result ++ [t]))

/-- A recursion-depth bound sufficient for the depth-first walk. -/
def dfsFuel (st : RepoState) : Nat := st.data.length + 2

/-- TopicTreeTraversal.traverseDepthFirst.  The default branch is
unreachable by dfs_adequate. -/
def traverseDepthFirst (st : RepoState) (rootTopicId : String) : List TopicObj :=
  ((dfsRecursive (dfsFuel st) st rootTopicId [] []).map Prod.snd).getD []

/-- TopicTreeTraversal.traverseBreadthFirst's queue loop: pop, skip
visited ids, mark, emit the live record when it resolves and enqueue its
unvisited findByParentId children. -/
def bfsLoop (fuel : Nat) (st : RepoState) (queue : List String)
    (visited : List String) (result : List TopicObj) : Option (List TopicObj) :=
  match queue with
  | [] => some result
  | cur :: rest =>
    match fuel with
    | 0 => none
    | Nat.succ f =>
      if cur ∈ visited then bfsLoop f st rest visited result
      else
        let visited1 := visited ++ [cur]
        match findByIdObj st cur with
        | none => bfsLoop f st rest visited1 result
        | some t =>
          let newIds := ((findByParentId st cur).map TopicObj.id).filter
            (fun c => c ∉ visited1)
          bfsLoop f st (rest ++ newIds) visited1 (result ++ [t])

/-- An iteration bound sufficient for the breadth-first queue loop. -/
def bfsFuel (st : RepoState) : Nat :=
  (st.data.length + 1) * (st.data.length + 1) + 1

/-- TopicTreeTraversal.traverseBreadthFirst.  The default branch is
unreachable by bfs_adequate. -/
def traverseBreadthFirst (st : RepoState) (rootTopicId : String) : List TopicObj :=
  (bfsLoop (bfsFuel st) st [rootTopicId] [] []).getD []

/-- The child ids both traversals fetch from a node: the ids of the
findByParentId matches, in order. -/
def childIds (st : RepoState) (x : String) : List String :=
  (findByParentId st x).map TopicObj.id

/-- The ids of the objects the live data map points at.  Every id either
traversal ever enqueues below the root is of this kind. -/
def objIds (st : RepoState) : List String :=
  st.data.filterMap (fun kv => (st.heap.read kv.2).map TopicObj.id)

/-- One data-map entry points at a stored object carrying the entry's key
as its id. -/
def keyOkB (st : RepoState) (kv : String × Nat) : Bool :=
  match st.heap.read kv.2 with
  | some t => t.id = kv.1
  | none => false

/-- Every live data-map entry stores its own key as the object id.  The
repository maintains this: create stores each object under the object's
own id, and createNewVersion re-registers the new object under the same
id it copies into it. -/
def WellKeyed (st : RepoState) : Prop :=
  ∀ kv ∈ st.data, keyOkB st kv = true

/-- Reachability along the traversal child relation: the nodes a
traversal can reach from the root, stepping from a node to its
findByParentId children whenever the node resolves to a live record. -/
inductive Reach (st : RepoState) (root : String) : String → Prop where
  | refl : Reach st root root
  | step {x y : String} {t : TopicObj} : Reach st root x →
      findByIdObj st x = some t → y ∈ childIds st x → Reach st root y

/-- The accumulator step of the depth-first child fold. -/
def dfsStep (st : RepoState) (f : Nat) :
    Option (List String × List TopicObj) → String →
      Option (List String × List TopicObj) :=
  fun acc cid =>
    match acc with
    | none => none
    | some (v1, r1) => dfsRecursive f st cid v1 r1

/-- How many live-object ids are still unvisited: the recursion-depth
budget the depth-first walk can still consume. -/
def dfsMeasure (st : RepoState) (v : List String) : Nat :=
  ((objIds st).filter (fun i => ¬ i ∈ v)).length

/-- How many live data-map keys are still unvisited: each one bounds how
often the breadth-first loop can grow its queue. -/
def bfsMeasure (st : RepoState) (v : List String) : Nat :=
  ((st.data.map Prod.fst).filter (fun k => ¬ k ∈ v)).length

/-- The post-condition of one depth-first call: the visited list grows by
a suffix, the result grows by emissions drawn from newly visited found
nodes, every new visited node is reachable from the call's node, and the
new visited set is closed under the child relation at found nodes. -/
def DfsPost (st : RepoState) (x : String) (v : List String) (r : List TopicObj)
    (v2 : List String) (r2 : List TopicObj) : Prop :=
  (∃ ev er, v2 = v ++ ev ∧ r2 = r ++ er ∧
    List.Sublist (er.map TopicObj.id) ev) ∧
  x ∈ v2 ∧
  (v.Nodup → v2.Nodup) ∧
  (∀ i, i ∈ v2 → i ∈ v ∨ Reach st x i) ∧
  (∀ t, t ∈ r2 → t ∈ r ∨
    ∃ i, ¬ i ∈ v ∧ Reach st x i ∧ findByIdObj st i = some t) ∧
  (∀ i, i ∈ v2 → ¬ i ∈ v → ∀ t, findByIdObj st i = some t →
    t ∈ r2 ∧ ∀ y, y ∈ childIds st i → y ∈ v2)

/-- The post-condition of the depth-first child fold, with reachability
rooted at any of the folded child ids. -/
def DfsFoldPost (st : RepoState) (cids : List String) (v : List String)
    (r : List TopicObj) (v2 : List String) (r2 : List TopicObj) : Prop :=
  (∃ ev er, v2 = v ++ ev ∧ r2 = r ++ er ∧
    List.Sublist (er.map TopicObj.id) ev) ∧
  (∀ c, c ∈ cids → c ∈ v2) ∧
  (v.Nodup → v2.Nodup) ∧
  (∀ i, i ∈ v2 → i ∈ v ∨ ∃ c, c ∈ cids ∧ Reach st c i) ∧
  (∀ t, t ∈ r2 → t ∈ r ∨
    ∃ i, ¬ i ∈ v ∧ (∃ c, c ∈ cids ∧ Reach st c i) ∧ findByIdObj st i = some t) ∧
  (∀ i, i ∈ v2 → ¬ i ∈ v → ∀ t, findByIdObj st i = some t →
    t ∈ r2 ∧ ∀ y, y ∈ childIds st i → y ∈ v2)

/-! ## Path finder (src/algorithms/TopicPathFinder.ts) -/

/-- TopicPathFinder.buildTopicGraph, one topic of the outer loop: push the
truthy parent onto the topic's adjacency and the topic onto the parent's
(the arrays alias the map entries, so every push is written through), then
append the unseen findByParentId children. -/
def buildStep (st : RepoState) (g : List (String × List String)) (t : TopicObj) :
    List (String × List String) :=
  let g1 :=
    if optTruthy t.parentId then
      let p := t.parentId.getD ""
      let ga := mapSet g t.id ((mapGet g t.id).getD [] ++ [p])
      let pn := (mapGet ga p).getD []
      if t.id ∈ pn then ga else mapSet ga p (pn ++ [t.id])
    else g
  let nb2 := (mapGet g1 t.id).getD []
  let nb3 := (findByParentId st t.id).foldl
    (fun acc c => if c.id ∈ acc then acc else acc ++ [c.id]) nb2
  mapSet g1 t.id nb3

/-- TopicPathFinder.buildTopicGraph: initialise every live id with an
empty adjacency list, then run the edge loop over the live topics. -/
def buildTopicGraph (st : RepoState) : List (String × List String) :=
  let allTopics := findAll st
  let g0 := allTopics.foldl (fun g t => mapSet g t.id []) []
  allTopics.foldl (fun g t => buildStep st g t) g0

/-- The read distances.get(nodeId) or-else Infinity of the source: a
missing entry and the stored value 0, which is falsy in JavaScript, both
coerce to Infinity. -/
def jsDistOrInf (m : List (String × ℕ∞)) (k : String) : ℕ∞ :=
  match mapGet m k with
  | some v => if v = 0 then ⊤ else v
  | none => ⊤

/-- The read distances.get(currentNode) or-else 0 of the source. -/
def jsDistOr0 (m : List (String × ℕ∞)) (k : String) : ℕ∞ :=
  (mapGet m k).getD 0

/-- The read previous.get(currentNode) or-else null of the source: a
missing entry, a stored null and the falsy empty string all give null. -/
def jsPrevOrNull (m : List (String × Option String)) (k : String) : Option String :=
  match mapGet m k with
  | some (some s) => if s = "" then none else some s
  | _ => none

/-- The minimum-distance selection of the main loop: scan the unvisited
ids in order, keeping the first strict improvement of the running minimum,
with each distance read through the falsy-coalescing jsDistOrInf. -/
def selectMin (dist : List (String × ℕ∞)) (unvisited : List String) :
    Option String × ℕ∞ :=
  unvisited.foldl
    (fun best nodeId =>
      let d := jsDistOrInf dist nodeId
      if d < best.2 then (some nodeId, d) else best)
    (none, ⊤)

/-- The main loop of TopicPathFinder.findShortestPath: select the minimum
unvisited node, stop when none qualifies or the target is reached,
otherwise relax its neighbours and continue. -/
def dijkstraLoop (fuel : Nat) (graph : List (String × List String))
    (dist : List (String × ℕ∞)) (prev : List (String × Option String))
    (unvisited : List String) (endId : String) :
    List (String × ℕ∞) × List (String × Option String) :=
  match fuel with
  | 0 => (dist, prev)
  | Nat.succ f =>
    match unvisited with
    | [] => (dist, prev)
    | _ :: _ =>
      match selectMin dist unvisited with
      | (none, _) => (dist, prev)
      | (some cur, minD) =>
        if minD = ⊤ then (dist, prev)
        else
          let unvis1 := unvisited.erase cur
          if cur = endId then (dist, prev)
          else
            let curD := jsDistOr0 dist cur
            let relaxed := ((mapGet graph cur).getD []).foldl
              (fun (dp : List (String × ℕ∞) × List (String × Option String)) nb =>
                if nb ∉ unvis1 then dp
                else
                  let nd := curD + 1
                  if nd < jsDistOrInf dp.1 nb then
                    (mapSet dp.1 nb nd, mapSet dp.2 nb (some cur))
                  else dp)
              (dist, prev)
            dijkstraLoop f graph relaxed.1 relaxed.2 unvis1 endId

/-- The path-reconstruction loop of findShortestPath, prepending each node
and following the previous pointers until null. -/
def reconstructPath (fuel : Nat) (prev : List (String × Option String)) :
    Option String → List String → Option (List String)
  | none, acc => some acc
  | some c, acc =>
    match fuel with
    | 0 => none
    | Nat.succ f => reconstructPath f prev (jsPrevOrNull prev c) (c :: acc)

/-- TopicPathFinder.findShortestPath: the identical-endpoint shortcut, the
graph membership test, the main loop, the reconstruction, the check that
the path starts at the source, and the conversion of ids to live topics
which fails the whole call when any id does not resolve. -/
def findShortestPath (st : RepoState) (startTopicId endTopicId : String) :
    Option (List TopicObj) :=
  if startTopicId = endTopicId then
    match findByIdObj st startTopicId with
    | some t => some [t]
    | none => none
  else
    let graph := buildTopicGraph st
    if ¬ (mapHas graph startTopicId ∧ mapHas graph endTopicId) then none
    else
      let dist0 := graph.foldl
        (fun m kv => mapSet m kv.1 (if kv.1 = startTopicId then (0 : ℕ∞) else ⊤)) []
      let prev0 := graph.foldl
        (fun m kv => mapSet m kv.1 (none : Option String)) []
      let unvis0 := graph.map Prod.fst
      let fin := dijkstraLoop unvis0.length graph dist0 prev0 unvis0 endTopicId
      match reconstructPath (graph.length + 1) fin.2 (some endTopicId) [] with
      | none => none
      | some path =>
        if path.head? ≠ some startTopicId then none
        else
          let topicPath := path.filterMap (findByIdObj st)
          if topicPath.length = path.length then some topicPath else none

/-! ## Hierarchy analysis (src/algorithms/TopicHierarchyAlgorithm.ts) -/

/-- The loop of TopicHierarchyAlgorithm.getAllAncestors: follow truthy
parentId links upward, collecting each parent that resolves, stopping at a
missing topic, a falsy parentId or an unresolvable parent.  Cyclic parent
chains make the source loop forever; fuel exhaustion returns none. -/
def ancLoop (fuel : Nat) (st : RepoState) (cur : String)
    (acc : List TopicObj) : Option (List TopicObj) :=
  match fuel with
  | 0 => none
  | Nat.succ f =>
    match findByIdObj st cur with
    | none => some acc
    | some t =>
      if ¬ optTruthy t.parentId then some acc
      else
        match findByIdObj st (t.parentId.getD "") with
        | none => some acc
        | some par => ancLoop f st par.id (acc ++ [par])

/-- TopicHierarchyAlgorithm.getAllAncestors. -/
def getAllAncestors (fuel : Nat) (st : RepoState) (topicId : String) :
    Option (List TopicObj) :=
  ancLoop fuel st topicId []

/-- The loop of TopicHierarchyAlgorithm.calculateDepth: count truthy
parent hops from the topic. -/
def depthLoop (fuel : Nat) (st : RepoState) (cur : String) (depth : Nat) :
    Option Nat :=
  match fuel with
  | 0 => none
  | Nat.succ f =>
    match findByIdObj st cur with
    | none => some depth
    | some t =>
      if ¬ optTruthy t.parentId then some depth
      else depthLoop f st (t.parentId.getD "") (depth + 1)

/-- TopicHierarchyAlgorithm.calculateDepth. -/
def calculateDepth (fuel : Nat) (st : RepoState) (topicId : String) : Option Nat :=
  depthLoop fuel st topicId 0

/-- TopicHierarchyAlgorithm.isAncestor: a topic is never its own ancestor;
otherwise the ancestor chain of the descendant is searched for the id. -/
def isAncestor (fuel : Nat) (st : RepoState) (ancestorId descendantId : String) :
    Option Bool :=
  if ancestorId = descendantId then some false
  else (getAllAncestors fuel st descendantId).map
    (fun ancs => ancs.any (fun a => a.id = ancestorId))

/-- TopicHierarchyAlgorithm.getAncestorPath: the topic itself, when it
resolves, followed by its ancestors. -/
def getAncestorPath (fuel : Nat) (st : RepoState) (topicId : String) :
    Option (List TopicObj) :=
  let start :=
    match findByIdObj st topicId with
    | some t => [t]
    | none => []
  (getAllAncestors fuel st topicId).map (fun ancs => start ++ ancs)

/-- TopicHierarchyAlgorithm.getCommonAncestor: identical ids resolve to
the topic itself; otherwise the first member of the first ancestor path
that occurs anywhere in the second ancestor path. -/
def getCommonAncestor (fuel : Nat) (st : RepoState) (topicId1 topicId2 : String) :
    Option (Option TopicObj) :=
  if topicId1 = topicId2 then some (findByIdObj st topicId1)
  else
    match getAncestorPath fuel st topicId1, getAncestorPath fuel st topicId2 with
    | some a1, some a2 =>
      some (a1.findSome? (fun anc1 =>
        if a2.any (fun anc2 => anc1.id = anc2.id) then some anc1 else none))
    | _, _ => none

/-- The record returned by TopicHierarchyAlgorithm.getRelationship. -/
structure Relationship where
  rtype : String
  description : String
  commonAncestor : Option TopicObj
  distance : Int
deriving Repr, DecidableEq

/-- TopicHierarchyAlgorithm.getRelationship, with the source's
classification order: same id, missing records, direct parent links either
way, shared truthy parent, transitive ancestry either way, lowest common
ancestor, unrelated. -/
def getRelationship (fuel : Nat) (st : RepoState) (topicId1 topicId2 : String) :
    Option Relationship :=
  if topicId1 = topicId2 then some ⟨"same", "Same topic", none, 0⟩
  else
    match findByIdObj st topicId1, findByIdObj st topicId2 with
    | some t1, some t2 =>
      if t1.parentId = some topicId2 then
        some ⟨"child-parent", t1.name ++ " is a child of " ++ t2.name, none, 1⟩
      else if t2.parentId = some topicId1 then
        some ⟨"parent-child", t1.name ++ " is a parent of " ++ t2.name, none, 1⟩
      else if optTruthy t1.parentId ∧ t1.parentId = t2.parentId then
        some ⟨"siblings", t1.name ++ " and " ++ t2.name ++ " are siblings", none, 2⟩
      else
        match isAncestor fuel st topicId1 topicId2 with
        | none => none
        | some true =>
          match calculateDepth fuel st topicId2, calculateDepth fuel st topicId1 with
          | some d2, some d1 =>
            some ⟨"ancestor-descendant",
              t1.name ++ " is an ancestor of " ++ t2.name, none, (d2 : Int) - d1⟩
          | _, _ => none
        | some false =>
          match isAncestor fuel st topicId2 topicId1 with
          | none => none
          | some true =>
            match calculateDepth fuel st topicId1, calculateDepth fuel st topicId2 with
            | some d1, some d2 =>
              some ⟨"descendant-ancestor",
                t1.name ++ " is a descendant of " ++ t2.name, none, (d1 : Int) - d2⟩
            | _, _ => none
          | some false =>
            match getCommonAncestor fuel st topicId1 topicId2 with
            | none => none
            | some (some ca) =>
              match calculateDepth fuel st topicId1, calculateDepth fuel st topicId2,
                  calculateDepth fuel st ca.id with
              | some d1, some d2, some dc =>
                some ⟨"cousins",
                  t1.name ++ " and " ++ t2.name ++ " are cousins (common ancestor: "
                    ++ ca.name ++ ")", some ca,
                  ((d1 : Int) - dc) + ((d2 : Int) - dc)⟩
              | _, _, _ => none
            | some none =>
              some ⟨"unrelated",
                t1.name ++ " and " ++ t2.name ++ " are not related in the hierarchy",
                none, -1⟩
    | _, _ =>
      some ⟨"unrelated", "One or both topics not found", none, -1⟩

/-! ## Relevance search (src/algorithms/TopicSearchAlgorithm.ts) -/

/-- The word-character class of the \w regex token. -/
def isWordChar (c : Char) : Bool := c.isAlphanum ∨ c = '_'

/-- Split a character list into its maximal word-character runs; this is
replace non-word-non-space by space, split on whitespace runs, drop the
empties, because every non-word character separates. -/
def splitWordsAux : List Char → List Char → List String
  | [], acc => if acc.isEmpty then [] else [String.mk acc.reverse]
  | c :: rest, acc =>
    if isWordChar c then splitWordsAux rest (c :: acc)
    else if acc.isEmpty then splitWordsAux rest []
    else String.mk acc.reverse :: splitWordsAux rest []

/-- TopicSearchAlgorithm.extractWords. -/
def extractWords (s : String) : List String :=
  splitWordsAux s.toList []

/-- The fixed stop-word list of TopicSearchAlgorithm.isStopWord. -/
def stopWords : List String :=
  ["a", "an", "and", "are", "as", "at", "be", "by", "for", "from",
   "has", "he", "in", "is", "it", "its", "of", "on", "that", "the",
   "to", "was", "will", "with", "the", "this", "but", "they", "have",
   "had", "what", "said", "each", "which", "their", "time", "if"]

/-- TopicSearchAlgorithm.isStopWord. -/
def isStopWord (w : String) : Bool := jsToLower w ∈ stopWords

/-- TopicSearchAlgorithm.preprocessQuery: lower-case, tokenize, drop the
empties and the stop words. -/
def preprocessQuery (q : String) : List String :=
  ((extractWords (jsToLower q)).filter (fun t => t ≠ "")).filter
    (fun t => ¬ isStopWord t)

/-- Append a field name on first contribution, as the matchedFields pushes
do. -/
def addField (fields : List String) (f : String) : List String :=
  if f ∈ fields then fields else fields ++ [f]

/-- One term's contribution in TopicSearchAlgorithm.calculateRelevance:
substring, whole-word and partial-word matches in the name weigh 10, 8 and
5, the same matches in the content weigh 3, 2 and 1, and matchedFields
records each field once. -/
def relevanceStep (t : TopicObj) (acc : Nat × List String) (term : String) :
    Nat × List String :=
  let nameWords := extractWords t.name
  let contentWords := extractWords t.content
  let acc :=
    if jsIncludes (jsToLower t.name) term then
      (acc.1 + 10, addField acc.2 "name") else acc
  let acc :=
    if nameWords.any (fun w => jsToLower w = term) then
      (acc.1 + 8, addField acc.2 "name") else acc
  let acc :=
    if nameWords.any (fun w => jsIncludes (jsToLower w) term) then
      (acc.1 + 5, addField acc.2 "name") else acc
  let acc :=
    if jsIncludes (jsToLower t.content) term then
      (acc.1 + 3, addField acc.2 "content") else acc
  let acc :=
    if contentWords.any (fun w => jsToLower w = term) then
      (acc.1 + 2, addField acc.2 "content") else acc
  let acc :=
    if contentWords.any (fun w => jsIncludes (jsToLower w) term) then
      (acc.1 + 1, addField acc.2 "content") else acc
  acc

/-- TopicSearchAlgorithm.calculateRelevance, carrying the raw integer
score.  The source divides the raw score by the positive quantity
searchTerms.length times the natural log of contentLength plus one before
comparing with zero; the division (and the JavaScript Infinity and NaN
corner cases for empty content or an empty term list) never changes
whether the score is positive, so membership in the result and the
matchedFields are unaffected and only the unmodelled floating-point score
value differs. -/
def calculateRelevance (searchTerms : List String) (t : TopicObj) :
    Nat × List String :=
  searchTerms.foldl (relevanceStep t) (0, [])

/-- One entry of the searchWithRelevance result list. -/
structure SearchResult where
  topic : TopicObj
  rawScore : Nat
  matchedFields : List String
  snippet : String
deriving Repr, DecidableEq

/-- JavaScript String.prototype.substring on already clamped bounds. -/
def jsSubstring (s : String) (a b : Nat) : String :=
  String.mk ((s.toList.take b).drop a)

/-- Non-overlapping occurrence count, modelling match with a global regex
built from an alphanumeric search term. -/
def countOccurAux : Nat → List Char → List Char → Nat
  | 0, _, _ => 0
  | Nat.succ f, hay, needle =>
    match hay with
    | [] => 0
    | h :: rest =>
      if needle ≠ [] ∧ needle.isPrefixOf (h :: rest) then
        countOccurAux f (rest.drop (needle.length - 1)) needle + 1
      else countOccurAux f rest needle

/-- Non-overlapping occurrence count with the haystack length as fuel,
which each step strictly consumes. -/
def countOccur (hay needle : List Char) : Nat :=
  countOccurAux hay.length hay needle

/-- indexOf of the space character, with the JavaScript minus-one miss. -/
def jsIndexOfSpace (s : String) : Int :=
  match s.toList.findIdx? (fun c => c = ' ') with
  | some i => (i : Int)
  | none => -1

/-- lastIndexOf of the space character, with the JavaScript minus-one
miss. -/
def jsLastIndexOfSpace (s : String) : Int :=
  match s.toList.reverse.findIdx? (fun c => c = ' ') with
  | some i => (s.length : Int) - 1 - (i : Int)
  | none => -1

/-- The window-scoring scan of generateSnippet over the content positions
0 to contentLength minus 201. -/
def bestWindow (content : String) (terms : List String) : Nat :=
  if content.length ≤ 200 then 0
  else
    let idxs := List.range (content.length - 200)
    (idxs.foldl
      (fun (best : Nat × Nat) i =>
        let snip := jsToLower (jsSubstring content i (i + 200))
        let score := terms.foldl
          (fun acc term => acc + countOccur snip.toList term.toList) 0
        if score > best.2 then (i, score) else best)
      (0, 0)).1

/-- TopicSearchAlgorithm.generateSnippet: pick the 200-character window
with the most term occurrences, trim to nearby word boundaries, and append
an ellipsis when the snippet stops before the end of the content. -/
def generateSnippet (t : TopicObj) (searchTerms : List String) : String :=
  let content := t.content
  let bestPosition := bestWindow content searchTerms
  let snippet := jsSubstring content bestPosition (bestPosition + 200)
  let snippet :=
    if bestPosition > 0 then
      let spaceIndex := jsIndexOfSpace snippet
      if 0 < spaceIndex ∧ spaceIndex < 50 then
        jsSubstring snippet (spaceIndex.toNat + 1) snippet.length
      else snippet
    else snippet
  let snippet :=
    let lastSpaceIndex := jsLastIndexOfSpace snippet
    if lastSpaceIndex > 150 then jsSubstring snippet 0 lastSpaceIndex.toNat
    else snippet
  jsTrim snippet ++
    (if bestPosition + snippet.length < content.length then "..." else "")

/-- TopicSearchAlgorithm.searchWithRelevance: empty trimmed queries give
nothing; otherwise each topic with a positive score contributes its
result.  The source finally sorts by the normalized floating-point score
descending; the sort is not modelled (the claims checked here involve at
most one result), so the list is in topic order. -/
def searchWithRelevance (query : String) (topics : List TopicObj) :
    List SearchResult :=
  if jsTrim query = "" then []
  else
    let searchTerms := preprocessQuery query
    topics.foldl
      (fun results topic =>
        let rel := calculateRelevance searchTerms topic
        if rel.1 > 0 then
          results ++ [⟨topic, rel.1, rel.2, generateSnippet topic searchTerms⟩]
        else results)
      []

/-! ## Concrete example states -/

/-- A freshly created topic record, as the service constructor leaves it. -/
def demoObj (id name content : String) (parentId : Option String) : TopicObj :=
  { id := id, name := name, content := content, version := 1
    parentId := parentId, children := [], childTopics := []
    createdAt := 0, updatedAt := 0 }

/-- A single root topic. -/
def stSelf : RepoState :=
  { heap := [demoObj "r" "Root" "Root content" none]
    data := [("r", 0)]
    versionData := [("r", [(1, 0)])]
    clock := 100 }

/-- A parent topic with one child, the setup of the repository's own
shortest-path integration test. -/
def stChain : RepoState :=
  { heap := [demoObj "p" "Parent Topic" "Parent content" none,
             demoObj "c" "Child Topic" "Child content" (some "p")]
    data := [("p", 0), ("c", 1)]
    versionData := [("p", [(1, 0)]), ("c", [(1, 1)])]
    clock := 100 }

/-- Three topics where the id of the first is a strict substring of the
parentId of the third: a (a root), xa (a root) and b whose parent is xa. -/
def stSub : RepoState :=
  { heap := [demoObj "a" "A" "A content" none,
             demoObj "xa" "XA" "XA content" none,
             demoObj "b" "B" "B content" (some "xa")]
    data := [("a", 0), ("xa", 1), ("b", 2)]
    versionData := [("a", [(1, 0)]), ("xa", [(1, 1)]), ("b", [(1, 2)])]
    clock := 100 }

/-- A small tree: the root r with children a and b, and c below a. -/
def stTree : RepoState :=
  { heap := [demoObj "r" "R" "R content" none,
             demoObj "a" "A" "A content" (some "r"),
             demoObj "b" "B" "B content" (some "r"),
             demoObj "c" "C" "C content" (some "a")]
    data := [("r", 0), ("a", 1), ("b", 2), ("c", 3)]
    versionData := [("r", [(1, 0)]), ("a", [(1, 1)]), ("b", [(1, 2)]),
                    ("c", [(1, 3)])]
    clock := 100 }

/-- The first topic of the search scenario of the specification. -/
def jsGuideTopic : TopicObj := demoObj "t1" "JS Guide" "learn javascript" none

/-- The second topic of the search scenario of the specification. -/
def pyGuideTopic : TopicObj := demoObj "t2" "Py Guide" "learn python" none

/-! ## Generic association-list and fold lemmas -/

theorem mapGet_mem {κ α : Type} [DecidableEq κ] {m : List (κ × α)} {k : κ} {v : α}
    (h : mapGet m k = some v) : (k, v) ∈ m := by
  induction m with
  | nil => simp [mapGet] at h
  | cons kv rest ih =>
    rw [mapGet] at h
    by_cases hk : kv.1 = k
    · rw [if_pos hk] at h
      obtain ⟨k1, v1⟩ := kv
      simp only at hk
      subst hk
      cases h
      exact List.mem_cons_self _ _
    · rw [if_neg hk] at h
      exact List.mem_cons_of_mem _ (ih h)

theorem mem_mapSet {κ α : Type} [DecidableEq κ] {m : List (κ × α)} {k : κ} {v : α}
    {kv : κ × α} (h : kv ∈ mapSet m k v) : kv ∈ m ∨ kv = (k, v) := by
  induction m with
  | nil => simp [mapSet] at h; simp [h]
  | cons kv0 rest ih =>
    rw [mapSet] at h
    by_cases hk : kv0.1 = k
    · rw [if_pos hk] at h
      rcases List.mem_cons.mp h with h1 | h1
      · right
        cases kv0
        simp_all
      · exact Or.inl (List.mem_cons_of_mem _ h1)
    · rw [if_neg hk] at h
      rcases List.mem_cons.mp h with h1 | h1
      · exact Or.inl (List.mem_cons.mpr (Or.inl h1))
      · rcases ih h1 with h2 | h2
        · exact Or.inl (List.mem_cons_of_mem _ h2)
        · exact Or.inr h2

theorem foldl_mapSet_val_inv {κ α γ : Type} [DecidableEq κ] (Q : α → Prop)
    (key : γ → κ) (val : γ → α) (hval : ∀ x, Q (val x)) :
    ∀ (l : List γ) (m0 : List (κ × α)), (∀ kv ∈ m0, Q kv.2) →
      ∀ kv ∈ l.foldl (fun m x => mapSet m (key x) (val x)) m0, Q kv.2 := by
  intro l
  induction l with
  | nil => intro m0 h0; simpa using h0
  | cons x rest ih =>
    intro m0 h0 kv hkv
    refine ih (mapSet m0 (key x) (val x)) ?_ kv hkv
    intro kv1 hkv1
    rcases mem_mapSet hkv1 with h1 | h1
    · exact h0 kv1 h1
    · rw [h1]
      exact hval x

/-! ## The falsy-zero distance read disables the shortest-path loop -/

theorem jsDistOrInf_top {m : List (String × ℕ∞)}
    (h : ∀ kv ∈ m, kv.2 = 0 ∨ kv.2 = ⊤) (k : String) : jsDistOrInf m k = ⊤ := by
  unfold jsDistOrInf
  cases hv : mapGet m k with
  | none => rfl
  | some v =>
    rcases h _ (mapGet_mem hv) with h1 | h1 <;>
      simp only at h1 <;> rw [h1] <;> simp

theorem jsPrevOrNull_none {m : List (String × Option String)}
    (h : ∀ kv ∈ m, kv.2 = none) (k : String) : jsPrevOrNull m k = none := by
  unfold jsPrevOrNull
  cases hv : mapGet m k with
  | none => rfl
  | some v =>
    have := h _ (mapGet_mem hv)
    simp only at this
    rw [this]

theorem selectMin_stuck {dist : List (String × ℕ∞)}
    (h : ∀ k, jsDistOrInf dist k = ⊤) (l : List String) :
    selectMin dist l = (none, ⊤) := by
  unfold selectMin
  induction l with
  | nil => rfl
  | cons x rest ih =>
    rw [List.foldl_cons]
    have hx : jsDistOrInf dist x = ⊤ := h x
    simp only [hx, lt_irrefl, if_neg]
    simpa [selectMin] using ih

theorem dijkstraLoop_stuck {graph : List (String × List String)}
    {dist : List (String × ℕ∞)} {prev : List (String × Option String)}
    (h : ∀ k, jsDistOrInf dist k = ⊤) (fuel : Nat) (unvisited : List String)
    (endId : String) :
    dijkstraLoop fuel graph dist prev unvisited endId = (dist, prev) := by
  cases fuel with
  | zero => rfl
  | succ f =>
    cases unvisited with
    | nil => rfl
    | cons x rest =>
      unfold dijkstraLoop
      rw [selectMin_stuck h]

theorem distInit_top (g : List (String × List String)) (a k : String) :
    jsDistOrInf
      (g.foldl (fun m kv => mapSet m kv.1 (if kv.1 = a then (0 : ℕ∞) else ⊤)) []) k
      = ⊤ := by
  refine jsDistOrInf_top (fun kv hkv => ?_) k
  refine foldl_mapSet_val_inv (fun v => v = 0 ∨ v = ⊤) Prod.fst
    (fun kv => if kv.1 = a then (0 : ℕ∞) else ⊤) (fun x => ?_) g [] (by simp) kv hkv
  by_cases hx : x.1 = a
  · simp [hx]
  · simp [hx]

theorem prevInit_none (g : List (String × List String)) (k : String) :
    jsPrevOrNull
      (g.foldl (fun m kv => mapSet m kv.1 (none : Option String)) []) k = none := by
  refine jsPrevOrNull_none (fun kv hkv => ?_) k
  exact foldl_mapSet_val_inv (fun v => v = none) Prod.fst
    (fun _ => (none : Option String)) (fun _ => rfl) g [] (by simp) kv hkv

theorem reconstruct_once {prev : List (String × Option String)} {b : String}
    (hp : jsPrevOrNull prev b = none) (n : Nat) (acc : List String) :
    reconstructPath (n + 1) prev (some b) acc = some (b :: acc) := by
  rw [reconstructPath]
  simp only [hp]
  rw [reconstructPath]

/-- C3: findShortestPath returns null when either id is not a live topic,
returns the single-element path when the endpoints coincide and exist, and
for distinct live connected endpoints returns a minimal path.  The claim
fails on the code: the minimum-selection loop reads each tentative
distance through the or-else-Infinity coalescing, under which the start
node's distance 0 is falsy and coerces to Infinity, so the loop breaks in
its first iteration, the reconstruction stops at the target immediately,
and every query with distinct endpoints returns null regardless of the
tree, contradicting the repository's own integration test of the route. -/
theorem shortestPath_distinct_always_null (st : RepoState) (a b : String)
    (h : a ≠ b) : findShortestPath st a b = none := by
  simp only [findShortestPath, if_neg h]
  split
  · rfl
  · rw [dijkstraLoop_stuck (fun k => distInit_top (buildTopicGraph st) a k)]
    dsimp only
    rw [reconstruct_once (prevInit_none (buildTopicGraph st) b)]
    simp only [List.head?_cons, ne_eq, Option.some.injEq]
    rw [if_pos (fun hba => h hba.symm)]

/-- Witness for C3 at the failing input: in the two-topic state of the
repository's own integration test, where c is a child of p, the query from
p to c returns null instead of the expected two-node path. -/
theorem shortestPath_distinct_always_null_witness :
    ("p" ≠ "c") ∧ findShortestPath stChain "p" "c" = none ∧
      (findByIdObj stChain "c").map TopicObj.parentId = some (some "p") :=
  ⟨by decide, shortestPath_distinct_always_null stChain "p" "c" (by decide),
    by decide⟩

/-- C1: a move of a topic to itself is specified to fail with
CircularReferenceError and leave the tree unchanged.  The code's
wouldCreateCircularReference only walks strict descendants, so the self
target passes both cycle checks; the move then mutates the live record's
parentId to its own id in place, and only afterwards does update's
validation throw, with a ValidationError instead of the specified error,
leaving the live record a parent of itself. -/
theorem move_to_self_wrong_error_and_mutates :
    (serviceMove 10 stSelf "r" (some "r")).1 =
      Except.error "Validation failed: Topic cannot be its own parent" ∧
    (findByIdObj stSelf "r").map TopicObj.parentId = some none ∧
    (findByIdObj (serviceMove 10 stSelf "r" (some "r")).2 "r").map TopicObj.parentId
      = some (some "r") := by
  refine ⟨rfl, by decide, by decide⟩

/-- C5: findByParentId returns exactly the live topics whose parentId
contains the queried id as a case-insensitive substring, not only those
whose parentId equals it; every traversal, graph construction, descendant
walk and delete check goes through this lookup. -/
theorem findByParentId_substring_semantics (st : RepoState) (p : String)
    (t : TopicObj) :
    t ∈ findByParentId st p ↔
      (t ∈ findAll st ∧
        ∃ s, t.parentId = some s ∧ jsIncludes (jsToLower s) (jsToLower p) = true) := by
  unfold findByParentId findByParentIdA findAll
  constructor
  · intro ht
    rw [List.mem_map] at ht
    obtain ⟨⟨ad, tt⟩, hmem, hEq⟩ := ht
    rw [List.mem_filterMap] at hmem
    obtain ⟨kv, hkv, hfm⟩ := hmem
    simp only at hEq
    subst hEq
    cases hread : st.heap.read kv.2 with
    | none => rw [hread] at hfm; exact absurd hfm (by simp)
    | some u =>
      rw [hread] at hfm
      simp only at hfm
      by_cases hmatch : matchesParent u p
      · rw [if_pos hmatch] at hfm
        cases hfm
        constructor
        · exact List.mem_filterMap.mpr ⟨kv, hkv, by rw [hread]⟩
        · unfold matchesParent at hmatch
          cases hpid : tt.parentId with
          | none => rw [hpid] at hmatch; exact absurd hmatch (by simp)
          | some s =>
            rw [hpid] at hmatch
            exact ⟨s, rfl, hmatch⟩
      · rw [if_neg hmatch] at hfm
        exact absurd hfm (by simp)
  · rintro ⟨hlive, s, hpid, hinc⟩
    rw [List.mem_filterMap] at hlive
    obtain ⟨kv, hkv, hread⟩ := hlive
    rw [List.mem_map]
    refine ⟨(kv.2, t), ?_, rfl⟩
    rw [List.mem_filterMap]
    refine ⟨kv, hkv, ?_⟩
    rw [hread]
    simp only
    rw [if_pos ?_]
    unfold matchesParent
    rw [hpid]
    exact hinc

/-- C6: searching the two scenario topics for the query javascript is
claimed to return exactly one result, named JS Guide, with matchedFields
containing name.  The query term occurs only in the content field of JS
Guide, not in its name, so the single result's matchedFields is exactly
the content field and the claimed name entry is absent. -/
theorem search_scenario_counterexample :
    (searchWithRelevance "javascript" [jsGuideTopic, pyGuideTopic]).length = 1 ∧
    ¬ ∃ r ∈ searchWithRelevance "javascript" [jsGuideTopic, pyGuideTopic],
        "name" ∈ r.matchedFields := by
  refine ⟨by decide, ?_⟩
  decide

theorem isPrefixOf_self (l : List Char) : l.isPrefixOf l = true := by
  induction l with
  | nil => rfl
  | cons a as ih => simp [List.isPrefixOf, ih]

theorem jsIncludes_self (s : String) : jsIncludes s s = true := by
  unfold jsIncludes subScan
  rw [if_pos (isPrefixOf_self s.toList)]

theorem findByIdA_some {st : RepoState} {id : String} {a : Nat} {t : TopicObj}
    (h : findByIdA st id = some (a, t)) :
    mapGet st.data id = some a ∧ st.heap.read a = some t := by
  unfold findByIdA at h
  cases hd : mapGet st.data id with
  | none => rw [hd] at h; exact absurd h (by simp)
  | some a0 =>
    rw [hd] at h
    simp only at h
    cases hr : st.heap.read a0 with
    | none => rw [hr] at h; exact absurd h (by simp)
    | some t0 =>
      rw [hr] at h
      simp only [Option.some.injEq, Prod.mk.injEq] at h
      obtain ⟨h1, h2⟩ := h
      subst h1
      subst h2
      exact ⟨rfl, hr⟩

theorem mapGet_mapSet_self {κ α : Type} [DecidableEq κ] (m : List (κ × α))
    (k : κ) (v : α) : mapGet (mapSet m k v) k = some v := by
  induction m with
  | nil => simp [mapSet, mapGet]
  | cons kv rest ih =>
    rw [mapSet]
    by_cases hk : kv.1 = k
    · rw [if_pos hk, mapGet, if_pos hk]
    · rw [if_neg hk, mapGet, if_neg hk]
      exact ih

/-- C4 as stated fails: a topic with no live child at all is refused
deletion because another topic's parentId merely contains its id as a
substring.  In the state with topics a, xa and b, where b's parent is xa,
the topic a has no live child, yet delete(a) throws the has-children
error and leaves the state unchanged. -/
theorem delete_substring_counterexample :
    (serviceDelete stSub "a").1 =
      Except.error "Cannot delete topic with children. Delete children first." ∧
    (serviceDelete stSub "a").2 = stSub ∧
    ∀ t ∈ findAll stSub, t.parentId ≠ some "a" := by
  refine ⟨rfl, by decide, by decide⟩

/-- C4 amended: delete on a live topic fails with the has-children error
exactly when findByParentId is non-empty, that is when some live topic's
parentId contains the id as a case-insensitive substring, which holds in
particular whenever the topic has a genuine live child; when no live
topic's parentId contains the id, delete succeeds and removes both the
live record and the topic's whole version chain. -/
theorem delete_children_check_behaviour (st : RepoState) (id : String)
    (a : Nat) (t : TopicObj) (hlive : findByIdA st id = some (a, t)) :
    ((∃ t' ∈ findAll st, t'.parentId = some id) → findByParentIdA st id ≠ []) ∧
    (findByParentIdA st id ≠ [] →
      serviceDelete st id =
        (Except.error "Cannot delete topic with children. Delete children first.",
          st)) ∧
    (findByParentIdA st id = [] →
      serviceDelete st id =
        (Except.ok true,
          { st with data := mapDel st.data id,
                    versionData := mapDel st.versionData id })) := by
  refine ⟨?_, ?_, ?_⟩
  · rintro ⟨t', ht', hpid⟩
    unfold findAll at ht'
    rw [List.mem_filterMap] at ht'
    obtain ⟨kv, hkv, hread⟩ := ht'
    have hmem : (kv.2, t') ∈ findByParentIdA st id := by
      unfold findByParentIdA
      rw [List.mem_filterMap]
      refine ⟨kv, hkv, ?_⟩
      rw [hread]
      simp only
      rw [if_pos ?_]
      unfold matchesParent
      rw [hpid]
      exact jsIncludes_self (jsToLower id)
    intro hnil
    rw [hnil] at hmem
    exact absurd hmem (List.not_mem_nil _)
  · intro hne
    have hcd : canDelete st id = false := by
      unfold canDelete
      rw [List.isEmpty_eq_false_iff_exists_mem]
      cases hlist : findByParentIdA st id with
      | nil => exact absurd hlist hne
      | cons x xs => exact ⟨x, List.mem_cons_self _ _⟩
    unfold serviceDelete
    rw [hlive]
    simp only [hcd]
    rfl
  · intro hnil
    have hcd : canDelete st id = true := by
      unfold canDelete
      rw [hnil]
      rfl
    obtain ⟨hd, _⟩ := findByIdA_some hlive
    unfold serviceDelete
    rw [hlive]
    simp only
    rw [if_neg (fun hh => hh hcd)]
    unfold repoDelete
    rw [if_neg (fun hh => hh hcd)]
    simp only [mapHas, hd, Option.isSome_some]

/-- Witness for C4 amended: the topic b of the substring state has no
matching child lookup, so its deletion succeeds and drops both its live
record and its version chain. -/
theorem delete_children_check_behaviour_witness :
    findByIdA stSub "b" = some (2, demoObj "b" "B" "B content" (some "xa")) ∧
    serviceDelete stSub "b" =
      (Except.ok true,
        { stSub with data := mapDel stSub.data "b",
                     versionData := mapDel stSub.versionData "b" }) := by
  refine ⟨by decide, ?_⟩
  exact (delete_children_check_behaviour stSub "b" 2
    (demoObj "b" "B" "B content" (some "xa")) (by decide)).2.2 (by decide)

theorem heapRead_concat (h : Heap) (o : TopicObj) :
    Heap.read (h ++ [o]) h.length = some o := by
  unfold Heap.read
  rw [List.get?_eq_getElem?]
  exact List.getElem?_concat_length h o

/-- C2: every topic the service creates is stored with version 1, and a
successful createNewVersion derives its record from the current live one,
with the same id and the version exactly one greater, so version numbers
are never skipped or repeated.  The freshness hypothesis in the first part
says the drawn uuid does not collide with a stored id, which is what
routes create to the fresh-topic branch. -/
theorem version_numbering :
    (∀ (st : RepoState) (newId : String) (name content parentId : Option String)
        (t : TopicObj) (st' : RepoState),
        serviceCreate st newId name content parentId = (Except.ok t, st') →
        mapGet st.data newId = none →
        t.version = 1 ∧ t.id = newId ∧ findByIdObj st' newId = some t) ∧
    (∀ (st : RepoState) (topicId : String) (updated : TopicObj)
        (t : TopicObj) (st' : RepoState) (a : Nat) (t0 : TopicObj),
        findByIdA st topicId = some (a, t0) →
        repoCreateNewVersion st topicId updated = (Except.ok t, st') →
        t.id = t0.id ∧ t.version = t0.version + 1 ∧
          findByIdObj st' topicId = some t) := by
  constructor
  · intro st newId name content parentId t st' h hfresh
    have hc1 : ¬ (¬ optTruthy name ∨ ¬ optTruthy content) := by
      intro hc
      unfold serviceCreate at h
      rw [if_pos hc] at h
      exact Except.noConfusion (congrArg Prod.fst h)
    have hc2 : ¬ (optTruthy parentId ∧ (findByIdA st (parentId.getD "")).isNone) := by
      intro hc
      unfold serviceCreate at h
      rw [if_neg hc1, if_pos hc] at h
      exact Except.noConfusion (congrArg Prod.fst h)
    unfold serviceCreate at h
    rw [if_neg hc1, if_neg hc2] at h
    simp only at h
    have hc3 : ¬ ((newTopicObj newId (name.getD "") (content.getD "") parentId
        st.clock).validate ≠ []) := by
      intro hc
      rw [if_pos hc] at h
      exact Except.noConfusion (congrArg Prod.fst h)
    rw [if_neg hc3] at h
    simp only [tick, Heap.alloc, newTopicObj] at h
    unfold repoCreate at h
    rw [heapRead_concat] at h
    simp only at h
    unfold existsId mapHas at h
    rw [hfresh] at h
    simp only [Option.isSome_none, Bool.false_eq_true, if_false] at h
    rw [if_neg (by simpa [newTopicObj] using hc3)] at h
    simp only [Prod.mk.injEq, Except.ok.injEq] at h
    obtain ⟨ht, hst⟩ := h
    subst ht
    subst hst
    refine ⟨rfl, rfl, ?_⟩
    unfold findByIdObj findByIdA
    rw [mapGet_mapSet_self]
    simp only
    rw [heapRead_concat]
    rfl
  · intro st topicId updated t st' a t0 hlive h
    unfold repoCreateNewVersion at h
    rw [hlive] at h
    simp only [Prod.mk.injEq, Except.ok.injEq] at h
    obtain ⟨ht, hst⟩ := h
    subst ht
    subst hst
    refine ⟨rfl, rfl, ?_⟩
    unfold findByIdObj findByIdA
    rw [mapGet_mapSet_self]
    simp only [tick, Heap.alloc]
    rw [heapRead_concat]
    rfl

/-- Witness for C2: in the small tree state, creating a topic under a
fresh id stores version 1, and a new version of the topic c, whose live
version is 1, stores version 2. -/
theorem version_numbering_witness :
    mapGet stTree.data "n1" = none ∧
    (∃ t st', serviceCreate stTree "n1" (some "N") (some "N content") none =
        (Except.ok t, st') ∧ t.version = 1) ∧
    (∃ t st', repoCreateNewVersion stTree "c"
        (demoObj "c" "C2" "C2 content" (some "a")) = (Except.ok t, st') ∧
        t.version = 2) := by
  refine ⟨by decide, ⟨_, _, rfl, ?_⟩, ⟨_, _, rfl, ?_⟩⟩
  · exact (version_numbering.1 stTree "n1" (some "N") (some "N content") none _ _
      rfl (by decide)).1
  · exact (version_numbering.2 stTree "c" (demoObj "c" "C2" "C2 content" (some "a"))
      _ _ 3 (demoObj "c" "C" "C content" (some "a")) (by decide) rfl).2.1

theorem relationship_parentChild_inversion {fuel : Nat} {st : RepoState}
    {a b : String} {ta tb : TopicObj} (hne : a ≠ b)
    (ha : findByIdObj st a = some ta) (hb : findByIdObj st b = some tb)
    (hpc : (getRelationship fuel st a b).map Relationship.rtype =
      some "parent-child") :
    tb.parentId = some a ∧ ta.parentId ≠ some b := by
  unfold getRelationship at hpc
  rw [if_neg hne, ha, hb] at hpc
  simp only at hpc
  by_cases h1 : ta.parentId = some b
  · rw [if_pos h1] at hpc
    simp at hpc
  · rw [if_neg h1] at hpc
    by_cases h2 : tb.parentId = some a
    · exact ⟨h2, h1⟩
    · exfalso
      rw [if_neg h2] at hpc
      by_cases h3 : optTruthy ta.parentId ∧ ta.parentId = tb.parentId
      · rw [if_pos h3] at hpc
        simp at hpc
      · rw [if_neg h3] at hpc
        revert hpc
        cases isAncestor fuel st a b with
        | none => simp
        | some bI =>
          cases bI with
          | true =>
            cases calculateDepth fuel st b with
            | none => simp
            | some d2 =>
              cases calculateDepth fuel st a with
              | none => simp
              | some d1 => simp
          | false =>
            cases isAncestor fuel st b a with
            | none => simp
            | some bJ =>
              cases bJ with
              | true =>
                cases calculateDepth fuel st a with
                | none => simp
                | some d1 =>
                  cases calculateDepth fuel st b with
                  | none => simp
                  | some d2 => simp
              | false =>
                cases getCommonAncestor fuel st a b with
                | none => simp
                | some oca =>
                  cases oca with
                  | none => simp
                  | some ca =>
                    intro hpc
                    dsimp only at hpc
                    cases hd1 : calculateDepth fuel st a with
                    | none => rw [hd1] at hpc; simp at hpc
                    | some d1 =>
                      rw [hd1] at hpc
                      cases hd2 : calculateDepth fuel st b with
                      | none => rw [hd2] at hpc; simp at hpc
                      | some d2 =>
                        rw [hd2] at hpc
                        cases hdc : calculateDepth fuel st ca.id with
                        | none => rw [hdc] at hpc; simp at hpc
                        | some dc => rw [hdc] at hpc; simp at hpc

theorem relationship_childParent_inversion {fuel : Nat} {st : RepoState}
    {a b : String} {ta tb : TopicObj} (hne : b ≠ a)
    (ha : findByIdObj st a = some ta) (hb : findByIdObj st b = some tb)
    (hcp : (getRelationship fuel st b a).map Relationship.rtype =
      some "child-parent") :
    tb.parentId = some a := by
  unfold getRelationship at hcp
  rw [if_neg hne, hb, ha] at hcp
  simp only at hcp
  by_cases h1 : tb.parentId = some a
  · exact h1
  · exfalso
    rw [if_neg h1] at hcp
    by_cases h2 : ta.parentId = some b
    · rw [if_pos h2] at hcp
      simp at hcp
    · rw [if_neg h2] at hcp
      by_cases h3 : optTruthy tb.parentId ∧ tb.parentId = ta.parentId
      · rw [if_pos h3] at hcp
        simp at hcp
      · rw [if_neg h3] at hcp
        revert hcp
        cases isAncestor fuel st b a with
        | none => simp
        | some bI =>
          cases bI with
          | true =>
            cases calculateDepth fuel st a with
            | none => simp
            | some d2 =>
              cases calculateDepth fuel st b with
              | none => simp
              | some d1 => simp
          | false =>
            cases isAncestor fuel st a b with
            | none => simp
            | some bJ =>
              cases bJ with
              | true =>
                cases calculateDepth fuel st b with
                | none => simp
                | some d1 =>
                  cases calculateDepth fuel st a with
                  | none => simp
                  | some d2 => simp
              | false =>
                cases getCommonAncestor fuel st b a with
                | none => simp
                | some oca =>
                  cases oca with
                  | none => simp
                  | some ca =>
                    intro hcp
                    dsimp only at hcp
                    cases hd1 : calculateDepth fuel st b with
                    | none => rw [hd1] at hcp; simp at hcp
                    | some d1 =>
                      rw [hd1] at hcp
                      cases hd2 : calculateDepth fuel st a with
                      | none => rw [hd2] at hcp; simp at hcp
                      | some d2 =>
                        rw [hd2] at hcp
                        cases hdc : calculateDepth fuel st ca.id with
                        | none => rw [hdc] at hcp; simp at hcp
                        | some dc => rw [hdc] at hcp; simp at hcp

theorem relationship_computes_parentChild {fuel : Nat} {st : RepoState}
    {a b : String} {ta tb : TopicObj} (hne : a ≠ b)
    (ha : findByIdObj st a = some ta) (hb : findByIdObj st b = some tb)
    (h1 : ta.parentId ≠ some b) (h2 : tb.parentId = some a) :
    getRelationship fuel st a b =
      some ⟨"parent-child", ta.name ++ " is a parent of " ++ tb.name, none, 1⟩ := by
  unfold getRelationship
  rw [if_neg hne, ha, hb]
  simp only
  rw [if_neg h1, if_pos h2]

theorem relationship_computes_childParent {fuel : Nat} {st : RepoState}
    {a b : String} {ta tb : TopicObj} (hne : b ≠ a)
    (ha : findByIdObj st a = some ta) (hb : findByIdObj st b = some tb)
    (h2 : tb.parentId = some a) :
    getRelationship fuel st b a =
      some ⟨"child-parent", tb.name ++ " is a child of " ++ ta.name, none, 1⟩ := by
  unfold getRelationship
  rw [if_neg hne, hb, ha]
  simp only
  rw [if_pos h2]

/-- C10: for live topics a and b, getRelationship(a, b) has type
parent-child exactly when getRelationship(b, a) has type child-parent, and
in that case both report distance 1.  The no-mutual-parent hypothesis is
the two-node instance of the specification's forest invariant; without it,
a cyclic pair where each record names the other as parent makes both
directions classify as child-parent through the first branch. -/
theorem relationship_parent_child_symmetry (fuel : Nat) (st : RepoState)
    (a b : String) (ta tb : TopicObj)
    (ha : findByIdObj st a = some ta) (hb : findByIdObj st b = some tb)
    (hnc : ¬ (ta.parentId = some b ∧ tb.parentId = some a)) :
    ((getRelationship fuel st a b).map Relationship.rtype = some "parent-child" ↔
      (getRelationship fuel st b a).map Relationship.rtype = some "child-parent") ∧
    ((getRelationship fuel st a b).map Relationship.rtype = some "parent-child" →
      (getRelationship fuel st a b).map Relationship.distance = some 1 ∧
      (getRelationship fuel st b a).map Relationship.distance = some 1) := by
  by_cases hne : a = b
  · subst hne
    refine ⟨?_, ?_⟩
    · unfold getRelationship
      rw [if_pos rfl]
      simp
    · unfold getRelationship
      rw [if_pos rfl]
      simp
  · have hne' : b ≠ a := fun hh => hne hh.symm
    have forward : (getRelationship fuel st a b).map Relationship.rtype =
        some "parent-child" →
        tb.parentId = some a ∧ ta.parentId ≠ some b := fun hpc =>
      relationship_parentChild_inversion hne ha hb hpc
    refine ⟨⟨?_, ?_⟩, ?_⟩
    · intro hpc
      obtain ⟨h2, _⟩ := forward hpc
      rw [relationship_computes_childParent hne' ha hb h2]
      rfl
    · intro hcp
      have h2 : tb.parentId = some a :=
        relationship_childParent_inversion hne' ha hb hcp
      have h1 : ta.parentId ≠ some b := fun hh => hnc ⟨hh, h2⟩
      rw [relationship_computes_parentChild hne ha hb h1 h2]
      rfl
    · intro hpc
      obtain ⟨h2, h1⟩ := forward hpc
      rw [relationship_computes_parentChild hne ha hb h1 h2,
        relationship_computes_childParent hne' ha hb h2]
      exact ⟨rfl, rfl⟩

/-- Witness for C10: in the small tree, r is the parent of a, the two
directions classify as parent-child and child-parent, and both distances
are 1. -/
theorem relationship_parent_child_symmetry_witness :
    ((getRelationship 10 stTree "r" "a").map Relationship.rtype =
        some "parent-child" ↔
      (getRelationship 10 stTree "a" "r").map Relationship.rtype =
        some "child-parent") ∧
    ((getRelationship 10 stTree "r" "a").map Relationship.rtype =
        some "parent-child" →
      (getRelationship 10 stTree "r" "a").map Relationship.distance = some 1 ∧
      (getRelationship 10 stTree "a" "r").map Relationship.distance = some 1) :=
  relationship_parent_child_symmetry 10 stTree "r" "a"
    (demoObj "r" "R" "R content" none) (demoObj "a" "A" "A content" (some "r"))
    (by decide) (by decide) (by decide)

/-! ## Frame reasoning for the mutating child walks

The descendant walk mutates live objects through addChild: it appends to
children bookkeeping, touches timestamps, and rewrites each found child's
parentId to the exact id of the walk node.  The core view below records
the fields the claims observe; on states where the substring child lookup
agrees with exact parent matching, the walk preserves it everywhere. -/

/-- The claim-observable fields of a topic record: id, name, content,
version and parentId (children bookkeeping and timestamps excluded). -/
def coreOf (t : TopicObj) : String × String × String × Nat × Option String :=
  (t.id, t.name, t.content, t.version, t.parentId)

/-- Two repository states agreeing on the data map, the version map, the
heap extent and the core of every heap object. -/
def sameCore (st st' : RepoState) : Prop :=
  st'.data = st.data ∧ st'.versionData = st.versionData ∧
  st'.heap.length = st.heap.length ∧
  ∀ a, (st'.heap.read a).map coreOf = (st.heap.read a).map coreOf

/-- The no-strict-substring hypothesis: whenever the substring matcher
relates a live record to a live id, the parentId is exactly that id.  This
holds in particular for uuid-generated ids of one fixed length. -/
def ExactParentMatches (st : RepoState) : Prop :=
  ∀ t ∈ findAll st, ∀ t' ∈ findAll st,
    matchesParent t' t.id = true → t'.parentId = some t.id

/-- An address stored in the data map. -/
def liveAddr (st : RepoState) (a : Nat) : Prop :=
  ∃ kv ∈ st.data, kv.2 = a

theorem sameCore_refl (st : RepoState) : sameCore st st :=
  ⟨rfl, rfl, rfl, fun _ => rfl⟩

theorem sameCore_trans {s1 s2 s3 : RepoState} (h12 : sameCore s1 s2)
    (h23 : sameCore s2 s3) : sameCore s1 s3 :=
  ⟨h23.1.trans h12.1, h23.2.1.trans h12.2.1, h23.2.2.1.trans h12.2.2.1,
    fun a => (h23.2.2.2 a).trans (h12.2.2.2 a)⟩

/-- Heaps of equal extent whose objects agree on the core view. -/
def heapCoreEq (h h' : Heap) : Prop :=
  h'.length = h.length ∧ ∀ a, (h'.read a).map coreOf = (h.read a).map coreOf

theorem heapCoreEq_refl (h : Heap) : heapCoreEq h h := ⟨rfl, fun _ => rfl⟩

theorem heapCoreEq_trans {h1 h2 h3 : Heap} (e12 : heapCoreEq h1 h2)
    (e23 : heapCoreEq h2 h3) : heapCoreEq h1 h3 :=
  ⟨e23.1.trans e12.1, fun a => (e23.2 a).trans (e12.2 a)⟩

theorem heapRead_write_ne (h : Heap) (a b : Nat) (o : TopicObj) (hne : b ≠ a) :
    (h.write a o).read b = h.read b := by
  unfold Heap.read Heap.write
  rw [List.get?_eq_getElem?, List.get?_eq_getElem?]
  rw [List.getElem?_set_ne (fun hh => hne hh.symm)]

theorem heapWrite_len (h : Heap) (a : Nat) (o : TopicObj) :
    (h.write a o).length = h.length := by
  unfold Heap.write
  exact List.length_set h a o

theorem heapRead_write_self {h : Heap} {a : Nat} {t : TopicObj} (o : TopicObj)
    (hr : h.read a = some t) : (h.write a o).read a = some o := by
  unfold Heap.read Heap.write
  unfold Heap.read at hr
  rw [List.get?_eq_getElem?] at hr ⊢
  have hl : a < h.length := by
    by_contra hge
    rw [List.getElem?_eq_none (by omega)] at hr
    exact Option.noConfusion hr
  rw [List.getElem?_set_self']
  simp [hl]

theorem heapCoreEq_write {h : Heap} {a : Nat} {t : TopicObj} {o : TopicObj}
    (hr : h.read a = some t) (hc : coreOf o = coreOf t) :
    heapCoreEq h (h.write a o) := by
  refine ⟨heapWrite_len h a o, fun b => ?_⟩
  by_cases hb : b = a
  · subst hb
    rw [heapRead_write_self o hr, hr]
    simp only [Option.map_some']
    rw [hc]
  · rw [heapRead_write_ne _ _ _ _ hb]

theorem heapCoreEq_read {h h' : Heap} (he : heapCoreEq h h') {a : Nat}
    {t : TopicObj} (hr : h.read a = some t) :
    ∃ t', h'.read a = some t' ∧ coreOf t' = coreOf t := by
  have := he.2 a
  rw [hr] at this
  cases hr' : h'.read a with
  | none => rw [hr'] at this; exact absurd this (by simp)
  | some t' =>
    rw [hr'] at this
    simp only [Option.map_some', Option.some.injEq] at this
    exact ⟨t', rfl, this⟩

/-- The filterMap membership form of the live lookup. -/
theorem mem_findAll {st : RepoState} {t : TopicObj} :
    t ∈ findAll st ↔ ∃ kv ∈ st.data, st.heap.read kv.2 = some t := by
  unfold findAll
  rw [List.mem_filterMap]

theorem findAll_of_read {st : RepoState} {a : Nat} {t : TopicObj}
    (hla : liveAddr st a) (hr : st.heap.read a = some t) : t ∈ findAll st := by
  obtain ⟨kv, hkv, hkva⟩ := hla
  exact mem_findAll.mpr ⟨kv, hkv, by rw [hkva, hr]⟩

theorem addChild_core {st : RepoState} {pa ca : Nat} {p c : TopicObj}
    (hE : ExactParentMatches st)
    (hpl : liveAddr st pa) (hcl : liveAddr st ca)
    (hp : st.heap.read pa = some p) (hc : st.heap.read ca = some c)
    (hm : matchesParent c p.id = true) :
    sameCore st (addChild st pa ca) := by
  have hpid : c.parentId = some p.id :=
    hE p (findAll_of_read hpl hp) c (findAll_of_read hcl hc) hm
  unfold addChild
  rw [hp, hc]
  dsimp only
  by_cases hmem : c.id ∈ p.children
  · rw [if_pos hmem]
    exact sameCore_refl st
  · rw [if_neg hmem]
    have e1 : heapCoreEq st.heap
        (st.heap.write pa
          { p with children := p.children ++ [c.id],
                   childTopics := mapSet p.childTopics c.id ca }) :=
      heapCoreEq_write hp rfl
    by_cases hca : ca = pa
    · subst hca
      have hcp : c = p := by
        rw [hp] at hc
        exact (Option.some.inj hc).symm
      subst hcp
      have hr1 : (st.heap.write ca
          { c with children := c.children ++ [c.id],
                   childTopics := mapSet c.childTopics c.id ca }).read ca =
          some { c with children := c.children ++ [c.id],
                        childTopics := mapSet c.childTopics c.id ca } :=
        heapRead_write_self _ hc
      rw [hr1]
      dsimp only
      have e2 : heapCoreEq
          (st.heap.write ca
            { c with children := c.children ++ [c.id],
                     childTopics := mapSet c.childTopics c.id ca })
          ((st.heap.write ca
            { c with children := c.children ++ [c.id],
                     childTopics := mapSet c.childTopics c.id ca }).write ca
            { c with children := c.children ++ [c.id],
                     childTopics := mapSet c.childTopics c.id ca,
                     parentId := some c.id }) := by
        refine heapCoreEq_write hr1 ?_
        unfold coreOf
        dsimp only
        rw [hpid]
      have e12 := heapCoreEq_trans e1 e2
      obtain ⟨p2, hr2, hc2⟩ := heapCoreEq_read e12 hp
      rw [hr2]
      dsimp only
      have e3 := heapCoreEq_write hr2 (show coreOf { p2 with updatedAt := st.clock }
        = coreOf p2 from rfl)
      exact ⟨rfl, rfl, (heapCoreEq_trans e12 e3).1, (heapCoreEq_trans e12 e3).2⟩
    · have hr1 : (st.heap.write pa
          { p with children := p.children ++ [c.id],
                   childTopics := mapSet p.childTopics c.id ca }).read ca =
          some c := by
        rw [heapRead_write_ne _ _ _ _ hca, hc]
      rw [hr1]
      dsimp only
      have e2 : heapCoreEq
          (st.heap.write pa
            { p with children := p.children ++ [c.id],
                     childTopics := mapSet p.childTopics c.id ca })
          ((st.heap.write pa
            { p with children := p.children ++ [c.id],
                     childTopics := mapSet p.childTopics c.id ca }).write ca
            { c with parentId := some p.id }) := by
        refine heapCoreEq_write hr1 ?_
        unfold coreOf
        dsimp only
        rw [hpid]
      have e12 := heapCoreEq_trans e1 e2
      obtain ⟨p2, hr2, hc2⟩ := heapCoreEq_read e12 hp
      rw [hr2]
      dsimp only
      have e3 := heapCoreEq_write hr2 (show coreOf { p2 with updatedAt := st.clock }
        = coreOf p2 from rfl)
      exact ⟨rfl, rfl, (heapCoreEq_trans e12 e3).1, (heapCoreEq_trans e12 e3).2⟩

theorem coreOf_id {t1 t2 : TopicObj} (h : coreOf t1 = coreOf t2) :
    t1.id = t2.id := congrArg Prod.fst h

theorem coreOf_parentId {t1 t2 : TopicObj} (h : coreOf t1 = coreOf t2) :
    t1.parentId = t2.parentId :=
  congrArg (fun x => x.2.2.2.2) h

theorem coreOf_version {t1 t2 : TopicObj} (h : coreOf t1 = coreOf t2) :
    t1.version = t2.version :=
  congrArg (fun x => x.2.2.2.1) h

theorem coreOf_name {t1 t2 : TopicObj} (h : coreOf t1 = coreOf t2) :
    t1.name = t2.name :=
  congrArg (fun x => x.2.1) h

theorem coreOf_content {t1 t2 : TopicObj} (h : coreOf t1 = coreOf t2) :
    t1.content = t2.content :=
  congrArg (fun x => x.2.2.1) h

theorem matchesParent_core {t1 t2 : TopicObj} (h : coreOf t1 = coreOf t2)
    (p : String) : matchesParent t1 p = matchesParent t2 p := by
  unfold matchesParent
  rw [coreOf_parentId h]

theorem sameCore_read {st s : RepoState} (hsc : sameCore st s) {a : Nat}
    {t : TopicObj} (hr : st.heap.read a = some t) :
    ∃ t', s.heap.read a = some t' ∧ coreOf t' = coreOf t := by
  have := hsc.2.2.2 a
  rw [hr] at this
  cases hr' : s.heap.read a with
  | none => rw [hr'] at this; exact absurd this (by simp)
  | some t' =>
    rw [hr'] at this
    simp only [Option.map_some', Option.some.injEq] at this
    exact ⟨t', rfl, this⟩

theorem sameCore_read_rev {st s : RepoState} (hsc : sameCore st s) {a : Nat}
    {t : TopicObj} (hr : s.heap.read a = some t) :
    ∃ t0, st.heap.read a = some t0 ∧ coreOf t = coreOf t0 := by
  have := hsc.2.2.2 a
  rw [hr] at this
  cases hr0 : st.heap.read a with
  | none => rw [hr0] at this; exact absurd this (by simp)
  | some t0 =>
    rw [hr0] at this
    simp only [Option.map_some', Option.some.injEq] at this
    exact ⟨t0, rfl, this⟩

theorem liveAddr_transfer {st s : RepoState} (hsc : sameCore st s) {a : Nat}
    (h : liveAddr st a) : liveAddr s a := by
  obtain ⟨kv, hkv, hkva⟩ := h
  exact ⟨kv, by rw [hsc.1]; exact hkv, hkva⟩

theorem EPM_transfer {st s : RepoState} (hsc : sameCore st s)
    (hE : ExactParentMatches st) : ExactParentMatches s := by
  intro t ht t' ht' hm
  obtain ⟨kv, hkv, hread⟩ := mem_findAll.mp ht
  obtain ⟨kv', hkv', hread'⟩ := mem_findAll.mp ht'
  rw [hsc.1] at hkv hkv'
  obtain ⟨t0, hr0, hc0⟩ := sameCore_read_rev hsc hread
  obtain ⟨t0', hr0', hc0'⟩ := sameCore_read_rev hsc hread'
  have hm0 : matchesParent t0' t0.id = true := by
    rw [← coreOf_id hc0, ← matchesParent_core hc0']
    exact hm
  have := hE t0 (mem_findAll.mpr ⟨kv, hkv, hr0⟩) t0'
    (mem_findAll.mpr ⟨kv', hkv', hr0'⟩) hm0
  rw [coreOf_parentId hc0', this, coreOf_id hc0]

theorem mem_findByParentIdA_facts {s : RepoState} {q : String}
    {kvp : Nat × TopicObj} (h : kvp ∈ findByParentIdA s q) :
    liveAddr s kvp.1 ∧ s.heap.read kvp.1 = some kvp.2 ∧
      matchesParent kvp.2 q = true := by
  unfold findByParentIdA at h
  rw [List.mem_filterMap] at h
  obtain ⟨kv, hkv, hf⟩ := h
  cases hread : s.heap.read kv.2 with
  | none => rw [hread] at hf; exact absurd hf (by simp)
  | some u =>
    rw [hread] at hf
    simp only at hf
    by_cases hm : matchesParent u q
    · rw [if_pos hm] at hf
      cases hf
      exact ⟨⟨kv, hkv, rfl⟩, hread, hm⟩
    · rw [if_neg hm] at hf
      exact absurd hf (by simp)

theorem walkFold_none (f addr : Nat) (l : List Nat) :
    l.foldl (fun acc childAddr =>
      match acc with
      | none => none
      | some s => loadChildrenRec f (addChild s addr childAddr) childAddr)
      none = none := by
  induction l with
  | nil => rfl
  | cons ca rest ih => rw [List.foldl_cons]; exact ih

/-- The child walk preserves the data map, the version map and the core of
every heap object, on states where the substring child lookup agrees with
exact parent matching: every parentId rewrite performed by addChild then
writes the value already stored. -/
theorem loadChildrenRec_core (fuel : Nat) :
    ∀ (st s : RepoState) (addr : Nat) (s' : RepoState),
      ExactParentMatches st → sameCore st s → liveAddr st addr →
      loadChildrenRec fuel s addr = some s' → sameCore st s' := by
  induction fuel with
  | zero =>
    intro st s addr s' _ _ _ hrun
    exact absurd hrun (by simp [loadChildrenRec])
  | succ f ih =>
    intro st s addr s' hE hsc hla hrun
    rw [loadChildrenRec] at hrun
    cases hr : s.heap.read addr with
    | none => rw [hr] at hrun; exact absurd hrun (by simp)
    | some topic =>
      rw [hr] at hrun
      simp only at hrun
      have hfold : ∀ (l : List Nat) (scur : RepoState),
          sameCore st scur →
          (∀ ca ∈ l, liveAddr st ca ∧
            ∃ c, s.heap.read ca = some c ∧ matchesParent c topic.id = true) →
          l.foldl (fun acc childAddr =>
            match acc with
            | none => none
            | some sx => loadChildrenRec f (addChild sx addr childAddr) childAddr)
            (some scur) = some s' →
          sameCore st s' := by
        intro l
        induction l with
        | nil =>
          intro scur hsc2 _ hfold
          rw [List.foldl_nil] at hfold
          cases hfold
          exact hsc2
        | cons ca rest ihl =>
          intro scur hsc2 hfacts hfold
          rw [List.foldl_cons] at hfold
          simp only at hfold
          cases hwalk : loadChildrenRec f (addChild scur addr ca) ca with
          | none =>
            rw [hwalk, walkFold_none] at hfold
            exact absurd hfold (by simp)
          | some snext =>
            rw [hwalk] at hfold
            obtain ⟨hlaca, c, hrc, hmc⟩ := hfacts ca (List.mem_cons_self _ _)
            obtain ⟨t0, hr0, hc0⟩ := sameCore_read_rev hsc hr
            obtain ⟨tc, hrtc, hctc⟩ := sameCore_read hsc2 hr0
            obtain ⟨c0, hrc0, hcc0⟩ := sameCore_read_rev hsc hrc
            obtain ⟨cc, hrcc, hccc⟩ := sameCore_read hsc2 hrc0
            have hmcc : matchesParent cc tc.id = true := by
              rw [matchesParent_core (hccc.trans hcc0.symm)]
              rw [coreOf_id (hctc.trans hc0.symm)]
              exact hmc
            have hscadd : sameCore st (addChild scur addr ca) :=
              sameCore_trans hsc2
                (addChild_core (EPM_transfer hsc2 hE)
                  (liveAddr_transfer hsc2 hla) (liveAddr_transfer hsc2 hlaca)
                  hrtc hrcc hmcc)
            have hscnext : sameCore st snext :=
              ih st (addChild scur addr ca) ca snext hE hscadd hlaca hwalk
            exact ihl snext hscnext
              (fun x hx => hfacts x (List.mem_cons_of_mem _ hx)) hfold
      refine hfold _ s hsc (fun ca hca => ?_) hrun
      rw [List.mem_map] at hca
      obtain ⟨kvp, hkvp, hfst⟩ := hca
      obtain ⟨hlive1, hread1, hm1⟩ := mem_findByParentIdA_facts hkvp
      subst hfst
      refine ⟨?_, kvp.2, hread1, hm1⟩
      obtain ⟨kv, hkv, hkva⟩ := hlive1
      exact ⟨kv, by rw [← hsc.1]; exact hkv, hkva⟩

/-- TopicRepository.getAllDescendants preserves the core view of the
state, under the exact-matching hypothesis. -/
theorem repoGetAllDescendants_core {fuel : Nat} {st : RepoState} {id : String}
    {ds : List TopicObj} {st' : RepoState} (hE : ExactParentMatches st)
    (hrun : repoGetAllDescendants fuel st id = (Except.ok ds, st')) :
    sameCore st st' := by
  unfold repoGetAllDescendants at hrun
  cases hfind : findByIdA st id with
  | none =>
    rw [hfind] at hrun
    simp only [Prod.mk.injEq] at hrun
    rw [← hrun.2]
    exact sameCore_refl st
  | some at0 =>
    rw [hfind] at hrun
    simp only at hrun
    have hla : liveAddr st at0.1 := by
      obtain ⟨hd, _⟩ := findByIdA_some (by rw [hfind] : findByIdA st id = some (at0.1, at0.2))
      exact ⟨(id, at0.1), mapGet_mem hd, rfl⟩
    cases hwalk : loadChildrenRec fuel st at0.1 with
    | none => rw [hwalk] at hrun; exact absurd hrun (by simp [fuelErr])
    | some st1 =>
      rw [hwalk] at hrun
      dsimp only at hrun
      have hsc1 : sameCore st st1 :=
        loadChildrenRec_core fuel st st at0.1 st1 hE (sameCore_refl st) hla hwalk
      cases hr1 : st1.heap.read at0.1 with
      | none => rw [hr1] at hrun; exact absurd hrun (by simp [fuelErr])
      | some t1 =>
        rw [hr1] at hrun
        dsimp only at hrun
        cases hdesc : getDescObjs fuel st1.heap t1 with
        | none => rw [hdesc] at hrun; exact absurd hrun (by simp [fuelErr])
        | some ds1 =>
          rw [hdesc] at hrun
          simp only [Prod.mk.injEq, Except.ok.injEq] at hrun
          rw [← hrun.2]
          exact hsc1

theorem mapSet_self {κ α : Type} [DecidableEq κ] {m : List (κ × α)} {k : κ}
    {v : α} (h : mapGet m k = some v) : mapSet m k v = m := by
  induction m with
  | nil => simp [mapGet] at h
  | cons kv rest ih =>
    rw [mapGet] at h
    rw [mapSet]
    by_cases hk : kv.1 = k
    · rw [if_pos hk] at h ⊢
      cases h
      rfl
    · rw [if_neg hk] at h ⊢
      rw [ih h]

theorem findByIdA_core {st s : RepoState} (hsc : sameCore st s) {id : String}
    {a : Nat} {t : TopicObj} (h : findByIdA st id = some (a, t)) :
    ∃ t', findByIdA s id = some (a, t') ∧ coreOf t' = coreOf t := by
  obtain ⟨hd, hr⟩ := findByIdA_some h
  obtain ⟨t', hr', hc⟩ := sameCore_read hsc hr
  refine ⟨t', ?_, hc⟩
  unfold findByIdA
  rw [hsc.1, hd]
  dsimp only
  rw [hr']

/-- The write-and-update tail of TopicRepository.moveToParent, after the
existence and cycle checks have passed at a state s2: the live object's
parentId is assigned in place and BaseRepository.update re-validates and
refreshes the data map entry it already holds. -/
theorem repoMoveTail_frame {s2 : RepoState} {id p : String} {a : Nat}
    {cur : TopicObj} {r : Option TopicObj} {st' : RepoState}
    (hd2 : mapGet s2.data id = some a) (hr2 : s2.heap.read a = some cur)
    (hok : repoUpdateParent
      { s2 with heap := s2.heap.write a { cur with parentId := some p } } id
      (some p) = (Except.ok r, st')) :
    st'.data = s2.data ∧ st'.versionData = s2.versionData ∧
    (∃ t1, r = some t1 ∧ findByIdObj st' id = some t1 ∧
      t1.parentId = some p ∧ t1.version = cur.version ∧
      t1.name = cur.name ∧ t1.content = cur.content) ∧
    ∀ b, b ≠ a → st'.heap.read b = s2.heap.read b := by
  have hr3 : (s2.heap.write a { cur with parentId := some p }).read a =
      some { cur with parentId := some p } := heapRead_write_self _ hr2
  have hfind3 : findByIdA
      { s2 with heap := s2.heap.write a { cur with parentId := some p } } id =
      some (a, { cur with parentId := some p }) := by
    unfold findByIdA
    dsimp only
    rw [hd2]
    dsimp only
    rw [hr3]
  unfold repoUpdateParent at hok
  rw [hfind3] at hok
  dsimp only at hok
  by_cases hval :
      (TopicObj.validate { cur with parentId := some p, updatedAt := s2.clock } ≠ [])
  · rw [if_pos hval] at hok
    exact absurd (congrArg Prod.fst hok) (by simp)
  · rw [if_neg hval] at hok
    simp only [Prod.mk.injEq, Except.ok.injEq] at hok
    obtain ⟨hr', hst'⟩ := hok
    subst hr'
    refine ⟨?_, ?_, ?_, ?_⟩
    · rw [← hst']
      dsimp only [tick]
      exact mapSet_self hd2
    · rw [← hst']
      rfl
    · refine ⟨_, rfl, ?_, rfl, rfl, rfl, rfl⟩
      rw [← hst']
      unfold findByIdObj findByIdA
      dsimp only [tick]
      rw [mapSet_self hd2, hd2]
      dsimp only
      rw [heapRead_write_self _ hr3]
      rfl
    · intro b hb
      rw [← hst']
      dsimp only [tick]
      rw [heapRead_write_ne _ _ _ _ hb, heapRead_write_ne _ _ _ _ hb]

/-- TopicRepository.moveToParent on a live topic with a target id: when it
returns ok, the result is the updated live record with its parentId set to
the target, the data and version maps are unchanged, every other heap
address keeps its core, and the moved record keeps its version, name and
content. -/
theorem repoMoveToParent_frame {fuel : Nat} {s1 : RepoState} {id p : String}
    {a : Nat} {t0 : TopicObj} {r : Option TopicObj} {st' : RepoState}
    (hE1 : ExactParentMatches s1)
    (hfind1 : findByIdA s1 id = some (a, t0))
    (hok : repoMoveToParent fuel s1 id (some p) = (Except.ok r, st')) :
    st'.data = s1.data ∧ st'.versionData = s1.versionData ∧
    (∃ t1, r = some t1 ∧ findByIdObj st' id = some t1 ∧
      t1.parentId = some p ∧ t1.version = t0.version ∧
      t1.name = t0.name ∧ t1.content = t0.content) ∧
    ∀ b, b ≠ a → (st'.heap.read b).map coreOf = (s1.heap.read b).map coreOf := by
  unfold repoMoveToParent at hok
  rw [hfind1] at hok
  dsimp only at hok
  by_cases hex : optTruthy (some p) ∧ ¬ existsId s1 ((some p).getD "")
  · rw [if_pos hex] at hok
    exact absurd (congrArg Prod.fst hok) (by simp)
  · rw [if_neg hex] at hok
    obtain ⟨hd1, hr1⟩ := findByIdA_some hfind1
    by_cases hpt : optTruthy (some p)
    · rw [if_pos hpt] at hok
      rcases hG : repoGetAllDescendants fuel s1 id with ⟨gres, s2⟩
      rw [hG] at hok
      cases gres with
      | error e =>
        dsimp only at hok
        exact absurd (congrArg Prod.fst hok) (by simp)
      | ok descs =>
        dsimp only at hok
        by_cases hany : descs.any (fun d => d.id = (some p).getD "") = true
        · rw [if_pos hany] at hok
          exact absurd (congrArg Prod.fst hok) (by simp)
        · rw [if_neg hany] at hok
          dsimp only at hok
          have hsc2 : sameCore s1 s2 := repoGetAllDescendants_core hE1 hG
          obtain ⟨cur, hr2, hcur⟩ := sameCore_read hsc2 hr1
          rw [hr2] at hok
          dsimp only at hok
          have hd2 : mapGet s2.data id = some a := by rw [hsc2.1]; exact hd1
          obtain ⟨ha1, ha2, ha3, ha4⟩ := repoMoveTail_frame hd2 hr2 hok
          obtain ⟨t1, hrt, hft, hpp, hvv, hnn, hcc⟩ := ha3
          refine ⟨ha1.trans hsc2.1, ha2.trans hsc2.2.1,
            ⟨t1, hrt, hft, hpp, hvv.trans (coreOf_version hcur),
              hnn.trans (coreOf_name hcur), hcc.trans (coreOf_content hcur)⟩,
            fun b hb => ?_⟩
          rw [ha4 b hb]
          exact hsc2.2.2.2 b
    · rw [if_neg hpt] at hok
      dsimp only at hok
      rw [hr1] at hok
      dsimp only at hok
      obtain ⟨ha1, ha2, ha3, ha4⟩ := repoMoveTail_frame hd1 hr1 hok
      obtain ⟨t1, hrt, hft, hpp, hvv, hnn, hcc⟩ := ha3
      exact ⟨ha1, ha2, ⟨t1, hrt, hft, hpp, hvv, hnn, hcc⟩,
        fun b hb => by rw [ha4 b hb]⟩

/-- C7 as stated fails: a successful move can change the parentId of a
live record other than the moved one.  In the substring state, moving a
under xa succeeds, but the cycle-check walk's addChild rewrites the
parentId of b, whose previous parent was xa, to a, because b's parentId
contains the id a as a substring and addChild normalizes every found
child's parentId to the walk node's id. -/
theorem move_rewrites_other_record :
    (∃ r st', serviceMove 10 stSub "a" (some "xa") = (Except.ok r, st') ∧
      (findByIdObj st' "b").map TopicObj.parentId = some (some "a")) ∧
    (findByIdObj stSub "b").map TopicObj.parentId = some (some "xa") := by
  refine ⟨⟨_, _, rfl, by decide⟩, by decide⟩

/-- C7 amended: on states where the substring child lookup coincides with
exact parent matching (true in particular for uuid ids), a successful move
of a live topic sets its live record's parentId to the new parent without
changing its version, name or content, leaves the whole version map and
the data map unchanged, and preserves the id, name, content, version and
parentId of every other heap object; only the children bookkeeping and the
updatedAt timestamps may change.  The version history of the id gains no
entry and loses none. -/
theorem move_changes_only_parent (fuel : Nat) (st : RepoState) (id p : String)
    (a : Nat) (t0 : TopicObj) (r : Option TopicObj) (st' : RepoState)
    (hE : ExactParentMatches st)
    (hlive : findByIdA st id = some (a, t0))
    (hok : serviceMove fuel st id (some p) = (Except.ok r, st')) :
    st'.data = st.data ∧ st'.versionData = st.versionData ∧
    (∃ t1, r = some t1 ∧ findByIdObj st' id = some t1 ∧
      t1.parentId = some p ∧ t1.version = t0.version ∧
      t1.name = t0.name ∧ t1.content = t0.content) ∧
    ∀ b, b ≠ a → (st'.heap.read b).map coreOf = (st.heap.read b).map coreOf := by
  unfold serviceMove at hok
  by_cases hpt : optTruthy (some p)
  · rw [if_pos hpt] at hok
    unfold wouldCCR at hok
    rcases hG : repoGetAllDescendants fuel st id with ⟨gres, s1⟩
    rw [hG] at hok
    cases gres with
    | error e =>
      dsimp only at hok
      exact absurd (congrArg Prod.fst hok) (by simp)
    | ok descs =>
      dsimp only at hok
      cases hany : descs.any (fun d => d.id = (some p).getD "") with
      | true =>
        rw [hany] at hok
        dsimp only at hok
        exact absurd (congrArg Prod.fst hok) (by simp)
      | false =>
        rw [hany] at hok
        dsimp only at hok
        have hsc1 : sameCore st s1 := repoGetAllDescendants_core hE hG
        have hE1 : ExactParentMatches s1 := EPM_transfer hsc1 hE
        obtain ⟨t0', hfind1, hc1⟩ := findByIdA_core hsc1 hlive
        obtain ⟨ha1, ha2, ⟨t1, hrt, hft, hpp, hvv, hnn, hcc⟩, ha4⟩ :=
          repoMoveToParent_frame hE1 hfind1 hok
        exact ⟨ha1.trans hsc1.1, ha2.trans hsc1.2.1,
          ⟨t1, hrt, hft, hpp, hvv.trans (coreOf_version hc1),
            hnn.trans (coreOf_name hc1), hcc.trans (coreOf_content hc1)⟩,
          fun b hb => (ha4 b hb).trans (hsc1.2.2.2 b)⟩
  · rw [if_neg hpt] at hok
    dsimp only at hok
    exact repoMoveToParent_frame hE hlive hok

/-- Witness for C7 amended: in the small tree, moving b under a succeeds,
keeps the data and version maps, and stores b's record with the new parent
and the old version. -/
theorem move_changes_only_parent_witness :
    ∃ r st', serviceMove 10 stTree "b" (some "a") = (Except.ok r, st') ∧
      st'.data = stTree.data ∧ st'.versionData = stTree.versionData ∧
      ∃ t1, r = some t1 ∧ t1.parentId = some "a" ∧ t1.version = 1 := by
  refine ⟨_, _, rfl, ?_⟩
  have h := move_changes_only_parent 10 stTree "b" "a" 2
    (demoObj "b" "B" "B content" (some "r")) _ _
    (by unfold ExactParentMatches; decide) (by decide) rfl
  obtain ⟨h1, h2, ⟨t1, hrt, _, hpp, hvv, _, _⟩, _⟩ := h
  exact ⟨h1, h2, t1, hrt, hpp, hvv⟩

/-- C8: an update through the service that requests a parent change to a
resolvable, non-cyclic target never persists it: the stored new version is
re-derived by the repository from the current live record, so it keeps the
previous live version's parentId (and in particular not the requested
one), and only name and content can change.  Stated on states where the
substring child lookup coincides with exact parent matching, so the
cycle-check walk cannot rewrite parent pointers in between. -/
theorem update_parent_change_not_persisted (fuel : Nat) (st : RepoState)
    (id : String) (dName dContent : Option String) (p : String)
    (a : Nat) (t0 : TopicObj) (r : Option TopicObj) (st' : RepoState)
    (hE : ExactParentMatches st)
    (hlive : findByIdA st id = some (a, t0))
    (hne : some p ≠ t0.parentId)
    (hok : serviceUpdate fuel st id dName dContent (some p) =
      (Except.ok r, st')) :
    ∃ t1, r = some t1 ∧ t1.parentId = t0.parentId ∧ t1.parentId ≠ some p ∧
      t1.version = t0.version + 1 ∧ findByIdObj st' id = some t1 := by
  have hsctick : sameCore st (tick st) := ⟨rfl, rfl, rfl, fun _ => rfl⟩
  unfold serviceUpdate at hok
  rw [hlive] at hok
  dsimp only at hok
  rw [if_pos hne] at hok
  by_cases hp0 : p = ""
  · rw [if_neg (fun hh => hh hp0)] at hok
    dsimp only at hok
    split at hok
    · exact absurd (congrArg Prod.fst hok) (by simp)
    · have hlive1 : findByIdA (tick st) id = some (a, t0) := hlive
      unfold repoCreateNewVersion at hok
      rw [hlive1] at hok
      dsimp only at hok
      simp only [Prod.mk.injEq, Except.ok.injEq] at hok
      obtain ⟨hr', hst'⟩ := hok
      subst hr'
      refine ⟨_, rfl, rfl, Ne.symm hne, rfl, ?_⟩
      rw [← hst']
      unfold findByIdObj findByIdA
      dsimp only [tick, Heap.alloc]
      rw [mapGet_mapSet_self]
      dsimp only
      rw [heapRead_concat]
      rfl
  · rw [if_pos hp0] at hok
    cases hfp : findByIdA (tick st) p with
    | none =>
      rw [hfp] at hok
      dsimp only at hok
      exact absurd (congrArg Prod.fst hok) (by simp)
    | some pobj =>
      rw [hfp] at hok
      dsimp only at hok
      unfold wouldCCR at hok
      rcases hG : repoGetAllDescendants fuel (tick st) id with ⟨gres, st2⟩
      rw [hG] at hok
      cases gres with
      | error e =>
        dsimp only at hok
        exact absurd (congrArg Prod.fst hok) (by simp)
      | ok descs =>
        dsimp only at hok
        cases hany : descs.any (fun d => d.id = p) with
        | true =>
          rw [hany] at hok
          dsimp only at hok
          exact absurd (congrArg Prod.fst hok) (by simp)
        | false =>
          rw [hany] at hok
          dsimp only at hok
          have hsc2 : sameCore st st2 :=
            sameCore_trans hsctick
              (repoGetAllDescendants_core (EPM_transfer hsctick hE) hG)
          obtain ⟨t0', hfind2, hc2⟩ := findByIdA_core hsc2 hlive
          split at hok
          · exact absurd (congrArg Prod.fst hok) (by simp)
          · unfold repoCreateNewVersion at hok
            rw [hfind2] at hok
            dsimp only at hok
            simp only [Prod.mk.injEq, Except.ok.injEq] at hok
            obtain ⟨hr', hst'⟩ := hok
            subst hr'
            refine ⟨_, rfl, ?_, ?_, ?_, ?_⟩
            · dsimp only [TopicObj.createNewVersionObj]
              exact coreOf_parentId hc2
            · dsimp only [TopicObj.createNewVersionObj]
              rw [coreOf_parentId hc2]
              exact Ne.symm hne
            · dsimp only [TopicObj.createNewVersionObj]
              rw [coreOf_version hc2]
            · rw [← hst']
              unfold findByIdObj findByIdA
              dsimp only [tick, Heap.alloc]
              rw [mapGet_mapSet_self]
              dsimp only
              rw [heapRead_concat]
              rfl

/-- Witness for C8: updating topic c of the small tree with requested
parent b stores a version 2 record that still has parent a. -/
theorem update_parent_change_not_persisted_witness :
    ∃ r st', serviceUpdate 10 stTree "c" none (some "C2 content") (some "b") =
      (Except.ok r, st') ∧
      ∃ t1, r = some t1 ∧ t1.parentId = some "a" ∧ t1.parentId ≠ some "b" ∧
        t1.version = 2 := by
  refine ⟨_, _, rfl, ?_⟩
  have h := update_parent_change_not_persisted 10 stTree "c" none
    (some "C2 content") "b" 3 (demoObj "c" "C" "C content" (some "a")) _ _
    (by unfold ExactParentMatches; decide) (by decide) (by decide) rfl
  obtain ⟨t1, hrt, hpp, hnp, hvv, _⟩ := h
  exact ⟨t1, hrt, hpp, hnp, hvv⟩

/-- C6 amended: the search over the two scenario topics for the query
javascript returns exactly one result, whose topic is named JS Guide and
whose matchedFields contains content and not name. -/
theorem search_scenario_amended :
    (searchWithRelevance "javascript" [jsGuideTopic, pyGuideTopic]).map
        (fun r => (r.topic.name, r.matchedFields)) = [("JS Guide", ["content"])] := by
  decide

/-! ## Traversal lemmas: the depth-first and breadth-first walks -/

theorem dfsRecursive_succ (f : Nat) (st : RepoState) (x : String)
    (v : List String) (r : List TopicObj) :
    dfsRecursive (f + 1) st x v r =
      if x ∈ v then some (v, r)
      else
        match findByIdObj st x with
        | none => some (v ++ [x], r)
        | some t =>
          ((findByParentId st x).map TopicObj.id).foldl (dfsStep st f)
            (some (v ++ [x], r ++ [t])) := rfl

theorem bfsLoop_nil (f : Nat) (st : RepoState) (v : List String)
    (r : List TopicObj) : bfsLoop f st [] v r = some r := by
  cases f with
  | zero => rfl
  | succ f => rfl

theorem bfsLoop_zero_cons (st : RepoState) (cur : String) (rest : List String)
    (v : List String) (r : List TopicObj) :
    bfsLoop 0 st (cur :: rest) v r = none := rfl

theorem bfsLoop_cons (f : Nat) (st : RepoState) (cur : String)
    (rest : List String) (v : List String) (r : List TopicObj) :
    bfsLoop (f + 1) st (cur :: rest) v r =
      if cur ∈ v then bfsLoop f st rest v r
      else
        match findByIdObj st cur with
        | none => bfsLoop f st rest (v ++ [cur]) r
        | some t =>
          bfsLoop f st
            (rest ++ ((findByParentId st cur).map TopicObj.id).filter
              (fun c => ¬ c ∈ (v ++ [cur])))
            (v ++ [cur]) (r ++ [t]) := rfl

theorem dfsFold_none (st : RepoState) (f : Nat) (cids : List String) :
    cids.foldl (dfsStep st f) none = none := by
  induction cids with
  | nil => rfl
  | cons c cs ih => exact ih

theorem childIds_subset_objIds {st : RepoState} {x y : String}
    (h : y ∈ childIds st x) : y ∈ objIds st := by
  unfold childIds at h
  rw [List.mem_map] at h
  obtain ⟨t, ht, rfl⟩ := h
  unfold findByParentId at ht
  rw [List.mem_map] at ht
  obtain ⟨kvp, hkvp, rfl⟩ := ht
  obtain ⟨⟨kv, hkv, hkva⟩, hread, _⟩ := mem_findByParentIdA_facts hkvp
  unfold objIds
  rw [List.mem_filterMap]
  refine ⟨kv, hkv, ?_⟩
  rw [hkva, hread]
  rfl

theorem findByIdObj_key_mem {st : RepoState} {i : String} {t : TopicObj}
    (h : findByIdObj st i = some t) : i ∈ st.data.map Prod.fst := by
  unfold findByIdObj findByIdA at h
  cases hd : mapGet st.data i with
  | none => rw [hd] at h; exact absurd h (by simp)
  | some a => exact List.mem_map.mpr ⟨(i, a), mapGet_mem hd, rfl⟩

theorem wellKeyed_found {st : RepoState} (hW : WellKeyed st) {i : String}
    {t : TopicObj} (h : findByIdObj st i = some t) : t.id = i := by
  unfold findByIdObj findByIdA at h
  cases hd : mapGet st.data i with
  | none => rw [hd] at h; exact absurd h (by simp)
  | some a =>
    rw [hd] at h
    dsimp only at h
    cases hr : st.heap.read a with
    | none => rw [hr] at h; exact absurd h (by simp)
    | some u =>
      rw [hr] at h
      simp only [Option.map_some', Option.some.injEq] at h
      have hkv := hW (i, a) (mapGet_mem hd)
      unfold keyOkB at hkv
      dsimp only at hkv
      rw [hr] at hkv
      subst h
      exact of_decide_eq_true hkv

theorem filterNot_sublist (l : List String) {v w : List String}
    (hs : ∀ i, i ∈ v → i ∈ w) :
    List.Sublist (l.filter (fun i => ¬ i ∈ w)) (l.filter (fun i => ¬ i ∈ v)) := by
  induction l with
  | nil => exact List.Sublist.refl _
  | cons a l ih =>
    rw [List.filter_cons, List.filter_cons]
    by_cases hw : a ∈ w
    · by_cases hv : a ∈ v
      · rw [if_neg (by simp [hw]), if_neg (by simp [hv])]
        exact ih
      · rw [if_neg (by simp [hw]), if_pos (by simp [hv])]
        exact List.Sublist.cons _ ih
    · have hv : ¬ a ∈ v := fun hm => hw (hs a hm)
      rw [if_pos (by simp [hw]), if_pos (by simp [hv])]
      exact List.Sublist.cons₂ _ ih

theorem filterNot_length_lt (l : List String) {v : List String} {x : String}
    (hl : x ∈ l) (hv : ¬ x ∈ v) :
    (l.filter (fun i => ¬ i ∈ (v ++ [x]))).length <
      (l.filter (fun i => ¬ i ∈ v)).length := by
  have hsub : List.Sublist (l.filter (fun i => ¬ i ∈ (v ++ [x])))
      (l.filter (fun i => ¬ i ∈ v)) :=
    filterNot_sublist l (fun i hi => List.mem_append.mpr (Or.inl hi))
  have hxT : x ∈ l.filter (fun i => ¬ i ∈ v) :=
    List.mem_filter.mpr ⟨hl, decide_eq_true hv⟩
  have hxS : ¬ x ∈ l.filter (fun i => ¬ i ∈ (v ++ [x])) := by
    intro hmem
    have hx : ¬ x ∈ v ++ [x] := of_decide_eq_true (List.mem_filter.mp hmem).2
    exact hx (List.mem_append.mpr (Or.inr (List.mem_singleton.mpr rfl)))
  refine Nat.lt_of_le_of_ne (List.Sublist.length_le hsub) ?_
  intro heq
  exact hxS (by rw [List.Sublist.eq_of_length hsub heq]; exact hxT)

theorem dfsMeasure_le {st : RepoState} {v w : List String}
    (hs : ∀ i, i ∈ v → i ∈ w) : dfsMeasure st w ≤ dfsMeasure st v :=
  List.Sublist.length_le (filterNot_sublist (objIds st) hs)

theorem dfsMeasure_append_lt {st : RepoState} {v : List String} {x : String}
    (hx : x ∈ objIds st) (hv : ¬ x ∈ v) :
    dfsMeasure st (v ++ [x]) < dfsMeasure st v :=
  filterNot_length_lt (objIds st) hx hv

theorem bfsMeasure_le {st : RepoState} {v w : List String}
    (hs : ∀ i, i ∈ v → i ∈ w) : bfsMeasure st w ≤ bfsMeasure st v :=
  List.Sublist.length_le (filterNot_sublist (st.data.map Prod.fst) hs)

theorem bfsMeasure_append_lt {st : RepoState} {v : List String} {x : String}
    (hx : x ∈ st.data.map Prod.fst) (hv : ¬ x ∈ v) :
    bfsMeasure st (v ++ [x]) < bfsMeasure st v :=
  filterNot_length_lt (st.data.map Prod.fst) hx hv

theorem dfs_adequate_aux (st : RepoState) : ∀ f : Nat,
    (∀ x v r, (x ∈ v ∨ x ∈ objIds st) → dfsMeasure st v + 1 ≤ f →
      ∃ v2 r2, dfsRecursive f st x v r = some (v2, r2) ∧ ∀ i, i ∈ v → i ∈ v2) ∧
    (∀ cids : List String, (∀ c, c ∈ cids → c ∈ objIds st) → ∀ v r, dfsMeasure st v + 1 ≤ f →
      ∃ v2 r2, cids.foldl (dfsStep st f) (some (v, r)) = some (v2, r2) ∧
        ∀ i, i ∈ v → i ∈ v2) := by
  intro f
  induction f with
  | zero =>
    constructor
    · intro x v r hx hb
      exact absurd hb (by omega)
    · intro cids hc v r hb
      exact absurd hb (by omega)
  | succ f ih =>
    have h1 : ∀ x v r, (x ∈ v ∨ x ∈ objIds st) → dfsMeasure st v + 1 ≤ f + 1 →
        ∃ v2 r2, dfsRecursive (f + 1) st x v r = some (v2, r2) ∧
          ∀ i, i ∈ v → i ∈ v2 := by
      intro x v r hx hb
      rw [dfsRecursive_succ]
      by_cases hxv : x ∈ v
      · rw [if_pos hxv]
        exact ⟨v, r, rfl, fun i hi => hi⟩
      · rw [if_neg hxv]
        have hxo : x ∈ objIds st := hx.resolve_left hxv
        have hlt : dfsMeasure st (v ++ [x]) < dfsMeasure st v :=
          dfsMeasure_append_lt hxo hxv
        cases hf : findByIdObj st x with
        | none =>
          exact ⟨v ++ [x], r, rfl, fun i hi => List.mem_append.mpr (Or.inl hi)⟩
        | some t =>
          obtain ⟨v2, r2, hrun, hsup⟩ := ih.2
            ((findByParentId st x).map TopicObj.id)
            (fun c hc => childIds_subset_objIds (x := x) (show c ∈ childIds st x from hc))
            (v ++ [x]) (r ++ [t]) (by omega)
          exact ⟨v2, r2, hrun,
            fun i hi => hsup i (List.mem_append.mpr (Or.inl hi))⟩
    have h2 : ∀ cids : List String, (∀ c, c ∈ cids → c ∈ objIds st) → ∀ v r,
        dfsMeasure st v + 1 ≤ f + 1 →
        ∃ v2 r2, cids.foldl (dfsStep st (f + 1)) (some (v, r)) = some (v2, r2) ∧
          ∀ i, i ∈ v → i ∈ v2 := by
      intro cids
      induction cids with
      | nil =>
        intro hc v r hb
        exact ⟨v, r, rfl, fun i hi => hi⟩
      | cons c cs ihc =>
        intro hc v r hb
        obtain ⟨va, ra, hrun1, hsup1⟩ :=
          h1 c v r (Or.inr (hc c (List.mem_cons_self c cs))) hb
        have hmle : dfsMeasure st va ≤ dfsMeasure st v :=
          @dfsMeasure_le st v va (fun i hi => hsup1 i hi)
        obtain ⟨v2, r2, hrun2, hsup2⟩ :=
          ihc (fun d hd => hc d (List.mem_cons_of_mem c hd)) va ra (by omega)
        refine ⟨v2, r2, ?_, fun i hi => hsup2 i (hsup1 i hi)⟩
        rw [List.foldl_cons]
        have hstep : dfsStep st (f + 1) (some (v, r)) c = some (va, ra) := hrun1
        rw [hstep]
        exact hrun2
    exact ⟨h1, h2⟩

theorem reach_through {st : RepoState} {x c i : String} {t : TopicObj}
    (hf : findByIdObj st x = some t) (hc : c ∈ childIds st x)
    (h : Reach st c i) : Reach st x i := by
  induction h with
  | refl => exact Reach.step Reach.refl hf hc
  | step hr hft hy ih => exact Reach.step ih hft hy

theorem reach_closed {st : RepoState} {V : List String}
    (hcl : ∀ i, i ∈ V → ∀ t, findByIdObj st i = some t →
      ∀ y, y ∈ childIds st i → y ∈ V)
    {c y : String} (h : Reach st c y) (hc : c ∈ V) : y ∈ V := by
  induction h with
  | refl => exact hc
  | step hr hft hy ih => exact hcl _ ih _ hft _ hy

theorem dfs_inv_aux (st : RepoState) (hW : WellKeyed st) : ∀ f : Nat,
    (∀ x v r v2 r2, dfsRecursive f st x v r = some (v2, r2) →
      DfsPost st x v r v2 r2) ∧
    (∀ cids : List String, ∀ v r v2 r2,
      cids.foldl (dfsStep st f) (some (v, r)) = some (v2, r2) →
      DfsFoldPost st cids v r v2 r2) := by
  intro f
  induction f with
  | zero =>
    constructor
    · intro x v r v2 r2 h
      rw [show dfsRecursive 0 st x v r = none from rfl] at h
      exact Option.noConfusion h
    · intro cids v r v2 r2 h
      cases cids with
      | nil =>
        simp only [List.foldl_nil, Option.some.injEq, Prod.mk.injEq] at h
        obtain ⟨hv, hr⟩ := h
        subst hv; subst hr
        exact ⟨⟨[], [], by simp, by simp, List.nil_sublist _⟩,
          fun c hc => absurd hc (List.not_mem_nil c),
          fun hnd => hnd, fun i hi => Or.inl hi, fun t ht => Or.inl ht,
          fun i hi hni => absurd hi hni⟩
      | cons c cs =>
        rw [List.foldl_cons,
          show dfsStep st 0 (some (v, r)) c = none from rfl,
          dfsFold_none] at h
        exact Option.noConfusion h
  | succ f ih =>
    have h1 : ∀ x v r v2 r2, dfsRecursive (f + 1) st x v r = some (v2, r2) →
        DfsPost st x v r v2 r2 := by
      intro x v r v2 r2 h
      rw [dfsRecursive_succ] at h
      by_cases hxv : x ∈ v
      · rw [if_pos hxv] at h
        simp only [Option.some.injEq, Prod.mk.injEq] at h
        obtain ⟨hv, hr⟩ := h
        subst hv; subst hr
        exact ⟨⟨[], [], by simp, by simp, List.nil_sublist _⟩, hxv,
          fun hnd => hnd, fun i hi => Or.inl hi, fun t ht => Or.inl ht,
          fun i hi hni => absurd hi hni⟩
      · rw [if_neg hxv] at h
        cases hf : findByIdObj st x with
        | none =>
          rw [hf] at h
          dsimp only at h
          simp only [Option.some.injEq, Prod.mk.injEq] at h
          obtain ⟨hv, hr⟩ := h
          subst hv; subst hr
          refine ⟨⟨[x], [], rfl, by simp, List.nil_sublist _⟩,
            List.mem_append.mpr (Or.inr (List.mem_singleton.mpr rfl)),
            ?_, ?_, ?_, ?_⟩
          · intro hnd
            rw [List.nodup_append]
            exact ⟨hnd, List.nodup_singleton x,
              fun a ha hb => hxv (by rwa [List.mem_singleton.mp hb] at ha)⟩
          · intro i hi
            rcases List.mem_append.mp hi with hiv | hix
            · exact Or.inl hiv
            · exact Or.inr (by rw [List.mem_singleton.mp hix]; exact Reach.refl)
          · intro t ht
            exact Or.inl ht
          · intro i hi hni t hfi
            have hix : i = x := by
              rcases List.mem_append.mp hi with hiv | hix
              · exact absurd hiv hni
              · exact List.mem_singleton.mp hix
            rw [hix, hf] at hfi
            exact Option.noConfusion hfi
        | some t =>
          rw [hf] at h
          dsimp only at h
          obtain ⟨⟨ev, er, hv2, hr2, hsb⟩, hcm, hnd, hreach, hemit, hclo⟩ :=
            ih.2 _ _ _ _ _ h
          have htid : t.id = x := wellKeyed_found hW hf
          have hxin : x ∈ v2 := by
            rw [hv2]
            exact List.mem_append.mpr (Or.inl (List.mem_append.mpr
              (Or.inr (List.mem_singleton.mpr rfl))))
          refine ⟨⟨[x] ++ ev, [t] ++ er, ?_, ?_, ?_⟩, hxin, ?_, ?_, ?_, ?_⟩
          · rw [hv2, List.append_assoc]
          · rw [hr2, List.append_assoc]
          · show List.Sublist ([t.id] ++ er.map TopicObj.id) ([x] ++ ev)
            rw [htid]
            exact List.Sublist.append (List.Sublist.refl [x]) hsb
          · intro hnd0
            apply hnd
            rw [List.nodup_append]
            exact ⟨hnd0, List.nodup_singleton x,
              fun a ha hb => hxv (by rwa [List.mem_singleton.mp hb] at ha)⟩
          · intro i hi
            rcases hreach i hi with hiv1 | ⟨c, hc, hrc⟩
            · rcases List.mem_append.mp hiv1 with hiv | hix
              · exact Or.inl hiv
              · exact Or.inr (by rw [List.mem_singleton.mp hix]; exact Reach.refl)
            · exact Or.inr (reach_through hf (show c ∈ childIds st x from hc) hrc)
          · intro t1 ht1
            rcases hemit t1 ht1 with ht1a | ⟨i, hiv, ⟨c, hc, hrc⟩, hfi⟩
            · rcases List.mem_append.mp ht1a with h0 | h0
              · exact Or.inl h0
              · exact Or.inr ⟨x, hxv, Reach.refl,
                  by rw [List.mem_singleton.mp h0]; exact hf⟩
            · exact Or.inr ⟨i, fun hiv0 => hiv (List.mem_append.mpr (Or.inl hiv0)),
                reach_through hf (show c ∈ childIds st x from hc) hrc, hfi⟩
          · intro i hi hni t1 hfi
            by_cases hix : i = x
            · subst hix
              rw [hf] at hfi
              injection hfi with ht1
              constructor
              · rw [hr2]
                exact List.mem_append.mpr (Or.inl (List.mem_append.mpr
                  (Or.inr (List.mem_singleton.mpr ht1.symm))))
              · intro y hy
                exact hcm y (show y ∈ (findByParentId st i).map TopicObj.id from hy)
            · have hni1 : ¬ i ∈ v ++ [x] := by
                intro hmem
                rcases List.mem_append.mp hmem with h0 | h0
                · exact hni h0
                · exact hix (List.mem_singleton.mp h0)
              exact hclo i hi hni1 t1 hfi
    have h2 : ∀ cids : List String, ∀ v r v2 r2,
        cids.foldl (dfsStep st (f + 1)) (some (v, r)) = some (v2, r2) →
        DfsFoldPost st cids v r v2 r2 := by
      intro cids
      induction cids with
      | nil =>
        intro v r v2 r2 h
        simp only [List.foldl_nil, Option.some.injEq, Prod.mk.injEq] at h
        obtain ⟨hv, hr⟩ := h
        subst hv; subst hr
        exact ⟨⟨[], [], by simp, by simp, List.nil_sublist _⟩,
          fun c hc => absurd hc (List.not_mem_nil c),
          fun hnd => hnd, fun i hi => Or.inl hi, fun t ht => Or.inl ht,
          fun i hi hni => absurd hi hni⟩
      | cons c cs ihc =>
        intro v r v2 r2 h
        rw [List.foldl_cons] at h
        cases hstep : dfsRecursive (f + 1) st c v r with
        | none =>
          rw [show dfsStep st (f + 1) (some (v, r)) c =
              dfsRecursive (f + 1) st c v r from rfl, hstep, dfsFold_none] at h
          exact Option.noConfusion h
        | some p =>
          obtain ⟨va, ra⟩ := p
          rw [show dfsStep st (f + 1) (some (v, r)) c =
              dfsRecursive (f + 1) st c v r from rfl, hstep] at h
          obtain ⟨⟨ev1, er1, hva, hra, hsb1⟩, hcin, hnd1, hreach1, hemit1, hclo1⟩ :=
            h1 c v r va ra hstep
          obtain ⟨⟨ev2, er2, hv2, hr2, hsb2⟩, hcm2, hnd2, hreach2, hemit2, hclo2⟩ :=
            ihc va ra v2 r2 h
          refine ⟨⟨ev1 ++ ev2, er1 ++ er2, ?_, ?_, ?_⟩, ?_, ?_, ?_, ?_, ?_⟩
          · rw [hv2, hva, List.append_assoc]
          · rw [hr2, hra, List.append_assoc]
          · rw [List.map_append]
            exact List.Sublist.append hsb1 hsb2
          · intro d hd
            rcases List.mem_cons.mp hd with hdc | hdc
            · subst hdc
              rw [hv2]
              exact List.mem_append.mpr (Or.inl hcin)
            · exact hcm2 d hdc
          · intro hnd
            exact hnd2 (hnd1 hnd)
          · intro i hi
            rcases hreach2 i hi with hiva | ⟨d, hd, hrd⟩
            · rcases hreach1 i hiva with h0 | h0
              · exact Or.inl h0
              · exact Or.inr ⟨c, List.mem_cons_self c cs, h0⟩
            · exact Or.inr ⟨d, List.mem_cons_of_mem c hd, hrd⟩
          · intro t ht
            rcases hemit2 t ht with hta | ⟨i, hiva, ⟨d, hd, hrd⟩, hfi⟩
            · rcases hemit1 t hta with ht0 | ⟨i, hiv, hrc, hfi⟩
              · exact Or.inl ht0
              · exact Or.inr ⟨i, hiv, ⟨c, List.mem_cons_self c cs, hrc⟩, hfi⟩
            · exact Or.inr ⟨i,
                fun h0 => hiva (by rw [hva]; exact List.mem_append.mpr (Or.inl h0)),
                ⟨d, List.mem_cons_of_mem c hd, hrd⟩, hfi⟩
          · intro i hi hni t hfi
            by_cases hia : i ∈ va
            · obtain ⟨htr, hch⟩ := hclo1 i hia hni t hfi
              constructor
              · rw [hr2]
                exact List.mem_append.mpr (Or.inl htr)
              · intro y hy
                rw [hv2]
                exact List.mem_append.mpr (Or.inl (hch y hy))
            · exact hclo2 i hi hia t hfi
    exact ⟨h1, h2⟩

theorem dfs_adequate (st : RepoState) (root : String) :
    ∃ v2 r2, dfsRecursive (dfsFuel st) st root [] [] = some (v2, r2) := by
  have hbase : dfsMeasure st [] ≤ st.data.length := by
    unfold dfsMeasure
    refine le_trans (List.length_filter_le _ _) ?_
    unfold objIds
    exact List.length_filterMap_le _ _
  by_cases hro : root ∈ objIds st
  · obtain ⟨v2, r2, hrun, _⟩ := (dfs_adequate_aux st (dfsFuel st)).1 root [] []
      (Or.inr hro) (by unfold dfsFuel; omega)
    exact ⟨v2, r2, hrun⟩
  · have heq : dfsRecursive (dfsFuel st) st root [] [] =
        dfsRecursive (st.data.length + 1 + 1) st root [] [] := rfl
    rw [heq, dfsRecursive_succ, if_neg (List.not_mem_nil root)]
    cases hf : findByIdObj st root with
    | none => exact ⟨[] ++ [root], [], rfl⟩
    | some t =>
      have hmle : dfsMeasure st ([] ++ [root]) ≤ dfsMeasure st [] :=
        @dfsMeasure_le st [] ([] ++ [root])
          (fun i hi => List.mem_append.mpr (Or.inl hi))
      obtain ⟨v2, r2, hrun, _⟩ := (dfs_adequate_aux st (st.data.length + 1)).2
        ((findByParentId st root).map TopicObj.id)
        (fun c hc => childIds_subset_objIds (x := root) (show c ∈ childIds st root from hc))
        ([] ++ [root]) ([] ++ [t]) (by omega)
      exact ⟨v2, r2, hrun⟩

theorem dfs_characterization (st : RepoState) (hW : WellKeyed st) (root : String)
    (V : List String) (R : List TopicObj)
    (h : dfsRecursive (dfsFuel st) st root [] [] = some (V, R)) :
    (∀ t, t ∈ R ↔ ∃ i, Reach st root i ∧ findByIdObj st i = some t) ∧
    (R.map TopicObj.id).Nodup := by
  obtain ⟨⟨ev, er, hv2, hr2, hsb⟩, hx, hnd, hreach, hemit, hclo⟩ :=
    (dfs_inv_aux st hW (dfsFuel st)).1 root [] [] V R h
  constructor
  · intro t
    constructor
    · intro ht
      rcases hemit t ht with h0 | ⟨i, _, hr, hf⟩
      · exact absurd h0 (List.not_mem_nil t)
      · exact ⟨i, hr, hf⟩
    · rintro ⟨i, hr, hf⟩
      have hcl : ∀ j, j ∈ V → ∀ t1, findByIdObj st j = some t1 →
          ∀ y, y ∈ childIds st j → y ∈ V := by
        intro j hj t1 hf1 y hy
        exact (hclo j hj (List.not_mem_nil j) t1 hf1).2 y hy
      have hiV : i ∈ V := reach_closed hcl hr hx
      exact (hclo i hiV (List.not_mem_nil i) t hf).1
  · have hVnd : V.Nodup := hnd List.nodup_nil
    have hsub : List.Sublist (R.map TopicObj.id) V := by
      rw [hr2, hv2]
      simp only [List.nil_append]
      exact hsb
    exact List.Nodup.sublist hsub hVnd

theorem bfs_sound (st : RepoState) (root : String) : ∀ f : Nat,
    ∀ queue visited : List String, ∀ result res : List TopicObj,
    bfsLoop f st queue visited result = some res →
    (∀ q, q ∈ queue → Reach st root q) →
    ∀ t, t ∈ res →
      t ∈ result ∨ ∃ i, Reach st root i ∧ findByIdObj st i = some t := by
  intro f
  induction f with
  | zero =>
    intro queue visited result res h hQ t ht
    cases queue with
    | nil =>
      rw [bfsLoop_nil] at h
      injection h with h
      subst h
      exact Or.inl ht
    | cons cur rest =>
      rw [bfsLoop_zero_cons] at h
      exact Option.noConfusion h
  | succ f ih =>
    intro queue visited result res h hQ t ht
    cases queue with
    | nil =>
      rw [bfsLoop_nil] at h
      injection h with h
      subst h
      exact Or.inl ht
    | cons cur rest =>
      rw [bfsLoop_cons] at h
      by_cases hcv : cur ∈ visited
      · rw [if_pos hcv] at h
        exact ih rest visited result res h
          (fun q hq => hQ q (List.mem_cons_of_mem cur hq)) t ht
      · rw [if_neg hcv] at h
        cases hfc : findByIdObj st cur with
        | none =>
          rw [hfc] at h
          dsimp only at h
          exact ih rest (visited ++ [cur]) result res h
            (fun q hq => hQ q (List.mem_cons_of_mem cur hq)) t ht
        | some tc =>
          rw [hfc] at h
          dsimp only at h
          have hQ1 : ∀ q, q ∈ rest ++
              ((findByParentId st cur).map TopicObj.id).filter
                (fun c => ¬ c ∈ (visited ++ [cur])) → Reach st root q := by
            intro q hq
            rcases List.mem_append.mp hq with h0 | h0
            · exact hQ q (List.mem_cons_of_mem cur h0)
            · have hq1 : q ∈ childIds st cur := (List.mem_filter.mp h0).1
              exact Reach.step (hQ cur (List.mem_cons_self cur rest)) hfc hq1
          rcases ih _ _ _ _ h hQ1 t ht with h0 | h0
          · rcases List.mem_append.mp h0 with h1 | h1
            · exact Or.inl h1
            · exact Or.inr ⟨cur, hQ cur (List.mem_cons_self cur rest),
                by rw [List.mem_singleton.mp h1]; exact hfc⟩
          · exact Or.inr h0

theorem bfs_complete_base (st : RepoState) (visited : List String)
    (result : List TopicObj)
    (hI : ∀ i, i ∈ visited → ∀ t, findByIdObj st i = some t →
      t ∈ result ∧ ∀ y, y ∈ childIds st i → y ∈ visited ∨ y ∈ ([] : List String))
    {c y : String} (hc : c ∈ visited) (hr : Reach st c y)
    {t : TopicObj} (hf : findByIdObj st y = some t) : t ∈ result := by
  have hcl : ∀ i, i ∈ visited → ∀ t1, findByIdObj st i = some t1 →
      ∀ z, z ∈ childIds st i → z ∈ visited := by
    intro i hi t1 hf1 z hz
    rcases (hI i hi t1 hf1).2 z hz with h0 | h0
    · exact h0
    · exact absurd h0 (List.not_mem_nil z)
  exact (hI y (reach_closed hcl hr hc) t hf).1

theorem bfs_complete (st : RepoState) : ∀ f : Nat,
    ∀ queue visited : List String, ∀ result res : List TopicObj,
    bfsLoop f st queue visited result = some res →
    (∀ i, i ∈ visited → ∀ t, findByIdObj st i = some t →
      t ∈ result ∧ ∀ y, y ∈ childIds st i → y ∈ visited ∨ y ∈ queue) →
    ∀ c, (c ∈ visited ∨ c ∈ queue) → ∀ y, Reach st c y →
    ∀ t, findByIdObj st y = some t → t ∈ res := by
  intro f
  induction f with
  | zero =>
    intro queue visited result res h hI c hc y hr t hf
    cases queue with
    | nil =>
      rw [bfsLoop_nil] at h
      injection h with h
      subst h
      exact bfs_complete_base st visited result hI
        (hc.resolve_right (List.not_mem_nil c)) hr hf
    | cons cur rest =>
      rw [bfsLoop_zero_cons] at h
      exact Option.noConfusion h
  | succ f ih =>
    intro queue visited result res h hI c hc y hr t hf
    cases queue with
    | nil =>
      rw [bfsLoop_nil] at h
      injection h with h
      subst h
      exact bfs_complete_base st visited result hI
        (hc.resolve_right (List.not_mem_nil c)) hr hf
    | cons cur rest =>
      rw [bfsLoop_cons] at h
      by_cases hcv : cur ∈ visited
      · rw [if_pos hcv] at h
        refine ih rest visited result res h ?_ c ?_ y hr t hf
        · intro i hi t1 hf1
          obtain ⟨h1, h2⟩ := hI i hi t1 hf1
          refine ⟨h1, fun z hz => ?_⟩
          rcases h2 z hz with h0 | h0
          · exact Or.inl h0
          · rcases List.mem_cons.mp h0 with h3 | h3
            · exact Or.inl (by rw [h3]; exact hcv)
            · exact Or.inr h3
        · rcases hc with h0 | h0
          · exact Or.inl h0
          · rcases List.mem_cons.mp h0 with h3 | h3
            · exact Or.inl (by rw [h3]; exact hcv)
            · exact Or.inr h3
      · rw [if_neg hcv] at h
        cases hfc : findByIdObj st cur with
        | none =>
          rw [hfc] at h
          dsimp only at h
          refine ih rest (visited ++ [cur]) result res h ?_ c ?_ y hr t hf
          · intro i hi t1 hf1
            rcases List.mem_append.mp hi with h0 | h0
            · obtain ⟨h1, h2⟩ := hI i h0 t1 hf1
              refine ⟨h1, fun z hz => ?_⟩
              rcases h2 z hz with h3 | h3
              · exact Or.inl (List.mem_append.mpr (Or.inl h3))
              · rcases List.mem_cons.mp h3 with h4 | h4
                · exact Or.inl (List.mem_append.mpr
                    (Or.inr (List.mem_singleton.mpr h4)))
                · exact Or.inr h4
            · rw [List.mem_singleton.mp h0, hfc] at hf1
              exact Option.noConfusion hf1
          · rcases hc with h0 | h0
            · exact Or.inl (List.mem_append.mpr (Or.inl h0))
            · rcases List.mem_cons.mp h0 with h3 | h3
              · exact Or.inl (List.mem_append.mpr
                  (Or.inr (List.mem_singleton.mpr h3)))
              · exact Or.inr h3
        | some tc =>
          rw [hfc] at h
          dsimp only at h
          refine ih _ _ _ _ h ?_ c ?_ y hr t hf
          · intro i hi t1 hf1
            rcases List.mem_append.mp hi with h0 | h0
            · obtain ⟨h1, h2⟩ := hI i h0 t1 hf1
              refine ⟨List.mem_append.mpr (Or.inl h1), fun z hz => ?_⟩
              rcases h2 z hz with h3 | h3
              · exact Or.inl (List.mem_append.mpr (Or.inl h3))
              · rcases List.mem_cons.mp h3 with h4 | h4
                · exact Or.inl (List.mem_append.mpr
                    (Or.inr (List.mem_singleton.mpr h4)))
                · exact Or.inr (List.mem_append.mpr (Or.inl h4))
            · have hicur : i = cur := List.mem_singleton.mp h0
              subst hicur
              rw [hfc] at hf1
              injection hf1 with htc
              constructor
              · exact List.mem_append.mpr
                  (Or.inr (List.mem_singleton.mpr htc.symm))
              · intro z hz
                by_cases hzv : z ∈ visited ++ [i]
                · exact Or.inl hzv
                · refine Or.inr (List.mem_append.mpr (Or.inr ?_))
                  exact List.mem_filter.mpr
                    ⟨show z ∈ (findByParentId st i).map TopicObj.id from hz,
                      decide_eq_true hzv⟩
          · rcases hc with h0 | h0
            · exact Or.inl (List.mem_append.mpr (Or.inl h0))
            · rcases List.mem_cons.mp h0 with h3 | h3
              · exact Or.inl (List.mem_append.mpr
                  (Or.inr (List.mem_singleton.mpr h3)))
              · exact Or.inr (List.mem_append.mpr (Or.inl h3))

theorem bfs_nodup (st : RepoState) (hW : WellKeyed st) : ∀ f : Nat,
    ∀ queue visited : List String, ∀ result res : List TopicObj,
    bfsLoop f st queue visited result = some res →
    (∀ t, t ∈ result → t.id ∈ visited) →
    (result.map TopicObj.id).Nodup →
    (res.map TopicObj.id).Nodup := by
  intro f
  induction f with
  | zero =>
    intro queue visited result res h hin hnd
    cases queue with
    | nil =>
      rw [bfsLoop_nil] at h
      injection h with h
      subst h
      exact hnd
    | cons cur rest =>
      rw [bfsLoop_zero_cons] at h
      exact Option.noConfusion h
  | succ f ih =>
    intro queue visited result res h hin hnd
    cases queue with
    | nil =>
      rw [bfsLoop_nil] at h
      injection h with h
      subst h
      exact hnd
    | cons cur rest =>
      rw [bfsLoop_cons] at h
      by_cases hcv : cur ∈ visited
      · rw [if_pos hcv] at h
        exact ih rest visited result res h hin hnd
      · rw [if_neg hcv] at h
        cases hfc : findByIdObj st cur with
        | none =>
          rw [hfc] at h
          dsimp only at h
          exact ih rest (visited ++ [cur]) result res h
            (fun t ht => List.mem_append.mpr (Or.inl (hin t ht))) hnd
        | some tc =>
          rw [hfc] at h
          dsimp only at h
          have htc : tc.id = cur := wellKeyed_found hW hfc
          refine ih _ _ _ _ h ?_ ?_
          · intro t ht
            rcases List.mem_append.mp ht with h0 | h0
            · exact List.mem_append.mpr (Or.inl (hin t h0))
            · rw [List.mem_singleton.mp h0, htc]
              exact List.mem_append.mpr (Or.inr (List.mem_singleton.mpr rfl))
          · rw [List.map_append, List.map_cons, List.map_nil, htc,
              List.nodup_append]
            refine ⟨hnd, List.nodup_singleton cur, ?_⟩
            intro a ha hb
            rw [List.mem_singleton.mp hb] at ha
            obtain ⟨t0, ht0, hid⟩ := List.mem_map.mp ha
            have hmem := hin t0 ht0
            rw [hid] at hmem
            exact hcv hmem

theorem bfs_adequate_aux (st : RepoState) : ∀ f : Nat,
    ∀ queue visited : List String, ∀ result : List TopicObj,
    queue.length + st.data.length * bfsMeasure st visited + 1 ≤ f →
    ∃ res, bfsLoop f st queue visited result = some res := by
  intro f
  induction f with
  | zero =>
    intro queue visited result hb
    exact absurd hb (by omega)
  | succ f ih =>
    intro queue visited result hb
    cases queue with
    | nil => exact ⟨result, bfsLoop_nil (f + 1) st visited result⟩
    | cons cur rest =>
      rw [bfsLoop_cons]
      by_cases hcv : cur ∈ visited
      · rw [if_pos hcv]
        apply ih rest visited result
        have h1 : (cur :: rest).length = rest.length + 1 := List.length_cons cur rest
        omega
      · rw [if_neg hcv]
        cases hfc : findByIdObj st cur with
        | none =>
          apply ih rest (visited ++ [cur]) result
          have h1 : (cur :: rest).length = rest.length + 1 := List.length_cons cur rest
          have h2 : bfsMeasure st (visited ++ [cur]) ≤ bfsMeasure st visited :=
            @bfsMeasure_le st visited (visited ++ [cur])
              (fun i hi => List.mem_append.mpr (Or.inl hi))
          have h3 := Nat.mul_le_mul_left st.data.length h2
          omega
        | some tc =>
          apply ih _ (visited ++ [cur]) _
          have h1 : (cur :: rest).length = rest.length + 1 := List.length_cons cur rest
          have hlt : bfsMeasure st (visited ++ [cur]) < bfsMeasure st visited :=
            bfsMeasure_append_lt (findByIdObj_key_mem hfc) hcv
          have h3 := Nat.mul_le_mul_left st.data.length
            (show bfsMeasure st (visited ++ [cur]) + 1 ≤ bfsMeasure st visited from hlt)
          have h5 : st.data.length * (bfsMeasure st (visited ++ [cur]) + 1) =
              st.data.length * bfsMeasure st (visited ++ [cur]) + st.data.length := by
            ring
          have h6 : (rest ++ ((findByParentId st cur).map TopicObj.id).filter
              (fun c => ¬ c ∈ (visited ++ [cur]))).length ≤
              rest.length + st.data.length := by
            rw [List.length_append]
            have h7 : (((findByParentId st cur).map TopicObj.id).filter
                (fun c => ¬ c ∈ (visited ++ [cur]))).length ≤ st.data.length := by
              refine le_trans (List.length_filter_le _ _) ?_
              rw [List.length_map]
              unfold findByParentId
              rw [List.length_map]
              unfold findByParentIdA
              exact List.length_filterMap_le _ _
            omega
          omega

theorem bfs_adequate (st : RepoState) (root : String) :
    ∃ res, bfsLoop (bfsFuel st) st [root] [] [] = some res := by
  apply bfs_adequate_aux st (bfsFuel st) [root] [] []
  have h0 : ([root] : List String).length = 1 := rfl
  have h1 : bfsMeasure st [] ≤ st.data.length := by
    unfold bfsMeasure
    refine le_trans (List.length_filter_le _ _) ?_
    rw [List.length_map]
  have h2 := Nat.mul_le_mul_left st.data.length h1
  have h3 : bfsFuel st = st.data.length * st.data.length +
      st.data.length + st.data.length + 1 + 1 := by
    unfold bfsFuel
    ring
  omega

theorem bfs_characterization (st : RepoState) (hW : WellKeyed st) (root : String)
    (res : List TopicObj)
    (h : bfsLoop (bfsFuel st) st [root] [] [] = some res) :
    (∀ t, t ∈ res ↔ ∃ i, Reach st root i ∧ findByIdObj st i = some t) ∧
    (res.map TopicObj.id).Nodup := by
  constructor
  · intro t
    constructor
    · intro ht
      rcases bfs_sound st root (bfsFuel st) [root] [] [] res h
          (fun q hq => by rw [List.mem_singleton.mp hq]; exact Reach.refl) t ht with
        h0 | h0
      · exact absurd h0 (List.not_mem_nil t)
      · exact h0
    · rintro ⟨i, hr, hf⟩
      exact bfs_complete st (bfsFuel st) [root] [] [] res h
        (fun j hj => absurd hj (List.not_mem_nil j)) root
        (Or.inr (List.mem_singleton.mpr rfl)) i hr t hf
  · exact bfs_nodup st hW (bfsFuel st) [root] [] [] res h
      (fun t ht => absurd ht (List.not_mem_nil t)) List.nodup_nil

theorem dfs_unknown_root (st : RepoState) (root : String) (k : Nat)
    (hr : findByIdObj st root = none) :
    dfsRecursive (k + 1) st root [] [] = some ([] ++ [root], []) := by
  rw [dfsRecursive_succ, if_neg (List.not_mem_nil root), hr]

theorem bfs_unknown_root (st : RepoState) (root : String) (k : Nat)
    (hr : findByIdObj st root = none) :
    bfsLoop (k + 1) st [root] [] [] = some [] := by
  rw [bfsLoop_cons, if_neg (List.not_mem_nil root), hr]
  dsimp only
  exact bfsLoop_nil k st ([] ++ [root]) []

/-- C9: on states whose live data map stores every object under the
object's own id (as the repository maintains), traverseDepthFirst and
traverseBreadthFirst from any root return lists containing exactly the
same set of topics, each id at most once in either list, and both lists
are empty when the root is not a live topic: both traversals enumerate
precisely the records reachable from the root along the findByParentId
child relation. -/
theorem dfs_bfs_same_set (st : RepoState) (root : String) (hW : WellKeyed st) :
    (∀ t, t ∈ traverseDepthFirst st root ↔ t ∈ traverseBreadthFirst st root) ∧
    ((traverseDepthFirst st root).map TopicObj.id).Nodup ∧
    ((traverseBreadthFirst st root).map TopicObj.id).Nodup ∧
    (findByIdObj st root = none →
      traverseDepthFirst st root = [] ∧ traverseBreadthFirst st root = []) := by
  obtain ⟨V, R, hD⟩ := dfs_adequate st root
  obtain ⟨res, hB⟩ := bfs_adequate st root
  have hDv : traverseDepthFirst st root = R := by
    unfold traverseDepthFirst
    rw [hD]
    rfl
  have hBv : traverseBreadthFirst st root = res := by
    unfold traverseBreadthFirst
    rw [hB]
    rfl
  obtain ⟨hDmem, hDnd⟩ := dfs_characterization st hW root V R hD
  obtain ⟨hBmem, hBnd⟩ := bfs_characterization st hW root res hB
  refine ⟨?_, ?_, ?_, ?_⟩
  · intro t
    rw [hDv, hBv, hDmem t, hBmem t]
  · rw [hDv]
    exact hDnd
  · rw [hBv]
    exact hBnd
  · intro hr
    constructor
    · have h2 : dfsRecursive (st.data.length + 1 + 1) st root [] [] =
          some ([] ++ [root], []) := dfs_unknown_root st root (st.data.length + 1) hr
      have h3 : dfsRecursive (dfsFuel st) st root [] [] =
          some ([] ++ [root], []) := h2
      unfold traverseDepthFirst
      rw [h3]
      rfl
    · have h2 : bfsLoop ((st.data.length + 1) * (st.data.length + 1) + 1)
          st [root] [] [] = some [] :=
        bfs_unknown_root st root ((st.data.length + 1) * (st.data.length + 1)) hr
      unfold traverseBreadthFirst bfsFuel
      rw [h2]
      rfl

/-- Witness for C9: the four-node tree satisfies the well-keyed invariant,
so from root a the two traversals agree as sets, have duplicate-free ids,
and are empty exactly on unknown roots. -/
theorem dfs_bfs_same_set_witness :
    WellKeyed stTree ∧
    ((∀ t, t ∈ traverseDepthFirst stTree "a" ↔ t ∈ traverseBreadthFirst stTree "a") ∧
      ((traverseDepthFirst stTree "a").map TopicObj.id).Nodup ∧
      ((traverseBreadthFirst stTree "a").map TopicObj.id).Nodup ∧
      (findByIdObj stTree "a" = none →
        traverseDepthFirst stTree "a" = [] ∧ traverseBreadthFirst stTree "a" = [])) :=
  ⟨by unfold WellKeyed; decide,
    dfs_bfs_same_set stTree "a" (by unfold WellKeyed; decide)⟩

end KB
